import Mathlib

/-!
Verification development for the GitReportTool repository.

The definitions below are a shallow embedding of the commit extraction,
diff classification and aggregation engine found in
`src/services/gitService.js` and `src/services/reportService.js`.
JavaScript strings are modelled as Lean `String`s (with the character-level
helpers `splitOnChar`, `jsTrim`, `intercalateChar` standing for
`String.prototype.split`, `trim` and `Array.prototype.join`), JavaScript
objects used as maps are modelled as association lists in insertion order,
and every fallible git query is modelled as an `Option`-valued input
(`none` standing for a query that throws).
-/

namespace GitReport

/-- JS `line.split(sep)` for a one-character separator, on character lists. -/
def splitOnChar (sep : Char) : List Char → List (List Char)
  | [] => [[]]
  | c :: cs =>
    let r := splitOnChar sep cs
    if c = sep then [] :: r
    else
      match r with
      | [] => [[c]]
      | h :: t => (c :: h) :: t

/-- JS `Array.prototype.join(sep)` for a one-character separator. -/
def intercalateChar (sep : Char) : List (List Char) → List Char
  | [] => []
  | [l] => l
  | l :: ls => l ++ sep :: intercalateChar sep ls

/-- JS `String.prototype.trim` on character lists. -/
def jsTrim (l : List Char) : List Char :=
  ((l.dropWhile Char.isWhitespace).reverse.dropWhile Char.isWhitespace).reverse

/-- JS `String.prototype.toLowerCase` (character-wise). -/
def jsToLower (s : String) : String := String.mk (s.data.map Char.toLower)

/-- The index of the last dot in a character list, if any. -/
def lastDotIdx : List Char → Option Nat
  | [] => none
  | c :: cs =>
    match lastDotIdx cs with
    | some i => some (i + 1)
    | none => if c = '.' then some 0 else none

/-- Embedding of Node `path.extname` (posix): the extension of the last
path component, from the final dot to the end of the component; empty when
there is no dot, when the dot leads the component (dotfiles), or when the
component is `..`. -/
def extname (p : String) : String :=
  let base := (splitOnChar '/' p.data).getLastD []
  if base = ['.', '.'] then ""
  else
    match lastDotIdx base with
    | none => ""
    | some 0 => ""
    | some i => String.mk (base.drop i)

/-- One parsed change record: `{path, type, status}` as produced by
`parseFirstCommitFiles` / `parseGitDiff` in `gitService.js`. -/
structure FileChange where
  path : String
  type : String
  status : String
deriving DecidableEq, Repr

/-- `parseFirstCommitFiles` (gitService.js lines 184-198): split the
`ls-tree --name-status` output into non-blank lines; for each line take the
field after the first tab (`parts[1]`, or the empty string when there is no
tab) as the path, tagging every file as added. -/
def parseFirstCommitFiles (output : String) : List FileChange :=
  let lines := (splitOnChar '\n' output.data).filter (fun l => !(jsTrim l).isEmpty)
  lines.map (fun line =>
    let parts := splitOnChar '\t' line
    let filePath := if parts.length > 1 then parts[1]?.getD [] else []
    { path := String.mk filePath, type := "新增", status := "A" })

/-- The `switch (status.charAt(0))` of `parseGitDiff`. -/
def changeTypeOfStatus (status : List Char) : String :=
  match status with
  | [] => "未知"
  | c :: _ =>
    if c = 'A' then "新增"
    else if c = 'M' then "修改"
    else if c = 'D' then "删除"
    else if c = 'R' then "重命名"
    else if c = 'C' then "复制"
    else "未知"

/-- `parseGitDiff` (gitService.js lines 205-228): split the `--name-status`
diff output into non-blank lines; each line is split on tabs, the head is
the status token and the remaining fields are rejoined with tabs to form
the path. -/
def parseGitDiff (diffOutput : String) : List FileChange :=
  let lines := (splitOnChar '\n' diffOutput.data).filter (fun l => !(jsTrim l).isEmpty)
  lines.map (fun line =>
    let parts := splitOnChar '\t' line
    let status := parts.headD []
    let fileParts := parts.tail
    let filePath := intercalateChar '\t' fileParts
    { path := String.mk filePath
      type := changeTypeOfStatus status
      status := String.mk status })

/-- Value of a digit run, as `parseInt` produces on the captured group. -/
def digitsVal (ds : List Char) : Nat :=
  ds.foldl (fun n c => n * 10 + (c.toNat - 48)) 0

/-- Match a literal character sequence at the head of the input, returning
the rest of the input on success. -/
def matchLit : List Char → List Char → Option (List Char)
  | [], rest => some rest
  | _ :: _, [] => none
  | l :: ls, c :: cs => if c = l then matchLit ls cs else none

/-- Match `\d+` (greedy, at least one digit) at the head of the input. -/
def matchNat (s : List Char) : Option (Nat × List Char) :=
  let ds := s.takeWhile Char.isDigit
  let rest := s.dropWhile Char.isDigit
  if ds.isEmpty then none else some (digitsVal ds, rest)

/-- Match one optional clause `, (\d+) WORDs? TAIL` of the commit-stat
regex in `analyzeCodeChanges` (the `s` is optional). -/
def matchClause (word tail : List Char) (s : List Char) : Option (Nat × List Char) := do
  let rest ← matchLit [',', ' '] s
  let (n, rest) ← matchNat rest
  let rest ← matchLit word rest
  let rest := (matchLit ['s'] rest).getD rest
  let rest ← matchLit tail rest
  return (n, rest)

/-- Match the regex
`(\d+) files? changed(?:, (\d+) insertions\(\+\))?(?:, (\d+) deletions\(-\))?`
(with both `s` letters optional) at the head of the input, returning the
insertion and deletion groups with `0` for an absent group, exactly as
`parseInt(statMatch[2] || 0, 10)` does. -/
def matchStatHere (s : List Char) : Option (Nat × Nat) := do
  let (_, rest) ← matchNat s
  let rest ← matchLit " file".data rest
  let rest := (matchLit ['s'] rest).getD rest
  let rest ← matchLit " changed".data rest
  let (ins, rest) :=
    match matchClause " insertion".data "(+)".data rest with
    | some (n, r) => (some n, r)
    | none => (none, rest)
  let (dels, _) :=
    match matchClause " deletion".data "(-)".data rest with
    | some (n, r) => (some n, r)
    | none => (none, rest)
  return (ins.getD 0, dels.getD 0)

/-- `show.match(regex)`: scan left to right for the first position where
the commit-stat pattern matches. -/
def searchStat : List Char → Option (Nat × Nat)
  | [] => none
  | c :: cs =>
    match matchStatHere (c :: cs) with
    | some r => some r
    | none => searchStat cs

/-- The slice of `config/default.js` that the analysis engine reads. -/
structure Config where
  includeCodeAnalysis : Bool
  ignoreFileTypes : List String
deriving DecidableEq, Repr

/-- The shipped `config/default.js` values used by the engine. -/
def defaultConfig : Config :=
  { includeCodeAnalysis := true
    ignoreFileTypes := [".log", ".lock", ".md", ".gitignore", ".DS_Store"] }

/-- One commit as consumed by `analyzeCodeChanges`, together with the
results of the git queries the loop body issues for it.  Each `Option`
field models one query: `none` stands for a query that throws.
`diffSummary1` and `diffSummary2` model the two separate
`git.diffSummary([hash^, hash])` invocations (lines 284 and 332). -/
structure CommitEnv where
  hash : String
  author : String
  isFirstCommit : Bool
  lsTree : Option String
  showStat : Option String
  diffSummary1 : Option (Nat × Nat)
  diffNameStatus : Option String
  diffSummary2 : Option (Nat × Nat)
deriving DecidableEq, Repr

/-- Per-author record of the `commitsByAuthor` map. -/
structure AuthorStats where
  commits : Nat
  additions : Nat
  deletions : Nat
deriving DecidableEq, Repr

/-- The `fileChanges` object of the analysis: only these four counters
exist in the source (gitService.js lines 246-251). -/
structure FileChangesCounts where
  added : Nat
  modified : Nat
  deleted : Nat
  renamed : Nat
deriving DecidableEq, Repr

/-- The `lineChanges` object of the analysis. -/
structure LineChanges where
  additions : Nat
  deletions : Nat
deriving DecidableEq, Repr

/-- The per-repository analysis record built by `analyzeCodeChanges`.
JS objects used as maps are association lists in insertion order. -/
structure Analysis where
  totalCommits : Nat
  totalFilesChanged : Nat
  fileTypes : List (String × Nat)
  fileChanges : FileChangesCounts
  lineChanges : LineChanges
  mostChangedFiles : List (String × Nat)
  commitsByAuthor : List (String × AuthorStats)
deriving DecidableEq, Repr

/-- One element of the `allChangedFiles` working list. -/
structure ChangedRec where
  path : String
  type : String
  commit : String
deriving DecidableEq, Repr

/-- JS `m[k] = (m[k] || 0) + d` on an object used as a counter map:
update in place when the key exists, append otherwise. -/
def bumpCount : List (String × Nat) → String → Nat → List (String × Nat)
  | [], k, d => [(k, d)]
  | (k', v) :: rest, k, d =>
    if k' = k then (k', v + d) :: rest else (k', v) :: bumpCount rest k d

/-- JS read of a counter map: `some` when the key is present. -/
def lookupCount : List (String × Nat) → String → Option Nat
  | [], _ => none
  | (k', v) :: rest, k => if k' = k then some v else lookupCount rest k

/-- Initialise-if-absent followed by a field update on the
`commitsByAuthor` object (gitService.js lines 321-328). -/
def updAuthor (m : List (String × AuthorStats)) (k : String)
    (f : AuthorStats → AuthorStats) : List (String × AuthorStats) :=
  match m with
  | [] => [(k, f ⟨0, 0, 0⟩)]
  | (k', v) :: rest =>
    if k' = k then (k', f v) :: rest else (k', v) :: updAuthor rest k f

/-- JS read of the author map: `some` when the key is present. -/
def lookupAuthorOpt : List (String × AuthorStats) → String → Option AuthorStats
  | [], _ => none
  | (k', v) :: rest, k => if k' = k then some v else lookupAuthorOpt rest k

/-- Read of the author map with the zero record for an absent key. -/
def lookupAuthor (m : List (String × AuthorStats)) (k : String) : AuthorStats :=
  (lookupAuthorOpt m k).getD ⟨0, 0, 0⟩

/-- The `switch (file.type)` of gitService.js lines 304-309: only the four
listed change types have a counter; copied and unknown changes fall
through without incrementing anything. -/
def applyChangeType (fc : FileChangesCounts) (t : String) : FileChangesCounts :=
  if t = "新增" then { fc with added := fc.added + 1 }
  else if t = "修改" then { fc with modified := fc.modified + 1 }
  else if t = "删除" then { fc with deleted := fc.deleted + 1 }
  else if t = "重命名" then { fc with renamed := fc.renamed + 1 }
  else fc

/-- Add one commit's insertions/deletions to `analysis.lineChanges`. -/
def addLineChanges (a : Analysis) (ins dels : Nat) : Analysis :=
  { a with lineChanges :=
      { additions := a.lineChanges.additions + ins
        deletions := a.lineChanges.deletions + dels } }

/-- The `changedFiles.forEach` body of gitService.js lines 296-317:
per file, count the (lower-cased, non-ignored, non-empty) extension,
count the change type, and push the record onto `allChangedFiles`. -/
def foldChangedFiles (cfg : Config) (st : Analysis × List ChangedRec)
    (chash : String) (files : List FileChange) : Analysis × List ChangedRec :=
  files.foldl (fun st f =>
    let ext := jsToLower (extname f.path)
    let a := st.1
    let a :=
      if ext = "" then a
      else if cfg.ignoreFileTypes.contains ext then a
      else { a with fileTypes := bumpCount a.fileTypes ext 1 }
    let a := { a with fileChanges := applyChangeType a.fileChanges f.type }
    (a, st.2 ++ [{ path := f.path, type := f.type, commit := chash }])) st

/-- `analysis.commitsByAuthor[author].commits++` with the
initialise-if-absent step (gitService.js lines 320-328). -/
def bumpAuthorCommits (a : Analysis) (author : String) : Analysis :=
  let m := updAuthor a.commitsByAuthor author
    (fun s => { s with commits := s.commits + 1 })
  { a with commitsByAuthor := m }

/-- `analysis.commitsByAuthor[author].additions += ins` and the same for
deletions (gitService.js lines 333-334). -/
def bumpAuthorLines (a : Analysis) (author : String) (ins dels : Nat) : Analysis :=
  let m := updAuthor a.commitsByAuthor author
    (fun s => { s with
        additions := s.additions + ins
        deletions := s.deletions + dels })
  { a with commitsByAuthor := m }

/-- One iteration of the `for (const commit of commits)` loop of
`analyzeCodeChanges` (gitService.js lines 263-341).  The `try/catch` is
modelled by stopping at the first failing git query while keeping every
mutation already applied before the failure. -/
def processCommit (cfg : Config) (st : Analysis × List ChangedRec)
    (c : CommitEnv) : Analysis × List ChangedRec :=
  if c.isFirstCommit then
    match c.lsTree with
    | none => st
    | some files =>
      let changedFiles := parseFirstCommitFiles files
      match c.showStat with
      | none => st
      | some showOut =>
        let st1 :=
          match searchStat showOut.data with
          | none => st
          | some (ins, dels) => (addLineChanges st.1 ins dels, st.2)
        let st2 := foldChangedFiles cfg st1 c.hash changedFiles
        (bumpAuthorCommits st2.1 c.author, st2.2)
  else
    match c.diffSummary1 with
    | none => st
    | some (ins, dels) =>
      let st1 := (addLineChanges st.1 ins dels, st.2)
      match c.diffNameStatus with
      | none => st1
      | some diff =>
        let changedFiles := parseGitDiff diff
        let st2 := foldChangedFiles cfg st1 c.hash changedFiles
        let st3 := (bumpAuthorCommits st2.1 c.author, st2.2)
        match c.diffSummary2 with
        | none => st3
        | some (i2, d2) => (bumpAuthorLines st3.1 c.author i2 d2, st3.2)

/-- The analysis object as initialised at gitService.js lines 242-258. -/
def initAnalysis (n : Nat) : Analysis :=
  { totalCommits := n
    totalFilesChanged := 0
    fileTypes := []
    fileChanges := ⟨0, 0, 0, 0⟩
    lineChanges := ⟨0, 0⟩
    mostChangedFiles := []
    commitsByAuthor := [] }

/-- `_.uniqBy(allChangedFiles, 'path')`: keep the first record for each
path, tracking the set of paths already seen. -/
def uniqByPathGo (seen : List String) : List ChangedRec → List ChangedRec
  | [] => []
  | r :: rest =>
    if r.path ∈ seen then uniqByPathGo seen rest
    else r :: uniqByPathGo (seen ++ [r.path]) rest

/-- `_.uniqBy(allChangedFiles, 'path')`. -/
def uniqByPath (l : List ChangedRec) : List ChangedRec :=
  uniqByPathGo [] l

/-- `_.countBy(allChangedFiles, 'path')` followed by `Object.entries`:
an association list from path to change frequency, keys in first-seen
order. -/
def countByPath (l : List ChangedRec) : List (String × Nat) :=
  l.foldl (fun m r => bumpCount m r.path 1) []

/-- The comparator `(a, b) => b.count - a.count` of gitService.js line
350, as the `le` relation of a stable sort: `a` may stay before `b`
exactly when the comparator is non-positive. -/
def countDesc (a b : String × Nat) : Bool := b.2 ≤ a.2

/-- `analyzeCodeChanges` (gitService.js lines 236-354): `null` when code
analysis is disabled or the commit list is empty; otherwise fold every
commit through the classification loop, then derive `totalFilesChanged`
(distinct paths) and `mostChangedFiles` (stable top five by frequency). -/
def analyzeCodeChanges (cfg : Config) (commits : List CommitEnv) :
    Option Analysis :=
  if ¬cfg.includeCodeAnalysis ∨ commits.length = 0 then none
  else
    let folded := commits.foldl (processCommit cfg) (initAnalysis commits.length, [])
    let allChangedFiles := folded.2
    let fileChangeCounts := countByPath allChangedFiles
    some { folded.1 with
           totalFilesChanged := (uniqByPath allChangedFiles).length
           mostChangedFiles := (fileChangeCounts.mergeSort countDesc).take 5 }

/-- One entry of the `git log` result (`log.all`), newest first. -/
structure LogEntry where
  hash : String
  date : String
  message : String
  author_name : String
  author_email : String
deriving DecidableEq, Repr

/-- JS `Array.prototype.findIndex`: the index of the first element
satisfying the predicate, `-1` when there is none. -/
def jsFindIndex (p : α → Bool) : List α → Int
  | [] => -1
  | a :: l =>
    if p a then 0
    else
      let r := jsFindIndex p l
      if r = -1 then -1 else r + 1

/-- `isFirstCommit` (gitService.js lines 129-136): the commit is a root
commit iff its first occurrence in the full newest-first history list is
the last element. -/
def isFirstCommit (allCommits : List LogEntry) (commitHash : String) : Bool :=
  jsFindIndex (fun c => c.hash == commitHash) allCommits == (allCommits.length : Int) - 1

/-- One commit record as returned by `getCommitsInDateRange`. -/
structure Commit where
  hash : String
  date : String
  message : String
  author : String
  email : String
  isFirstCommit : Bool
deriving DecidableEq, Repr

/-- `getCommitsInDateRange` (gitService.js lines 92-121) after the
emptiness check, on a repository with history `log`.  The date-window
test `isDateInReportRange` and `formatDate` live in `dateUtils.js`,
which is not part of the analysed sources; they enter here as abstract
function parameters. -/
def getCommitsInDateRange (inRange : String → Bool) (fmtDate : String → String)
    (log : List LogEntry) : List Commit :=
  let filteredCommits := log.filter (fun c => inRange c.date)
  filteredCommits.map (fun c =>
    { hash := c.hash
      date := fmtDate c.date
      message := c.message
      author := c.author_name
      email := c.author_email
      isFirstCommit := isFirstCommit log c.hash })

/-- The run-wide summary object of `generateSummaryStats`
(reportService.js lines 112-126). -/
structure Summary where
  totalCommits : Nat
  totalFilesChanged : Nat
  totalAdditions : Nat
  totalDeletions : Nat
  commitsByAuthor : List (String × AuthorStats)
  fileTypes : List (String × Nat)
  fileChanges : FileChangesCounts
deriving DecidableEq, Repr

/-- The zero-initialised summary. -/
def initSummary : Summary :=
  { totalCommits := 0
    totalFilesChanged := 0
    totalAdditions := 0
    totalDeletions := 0
    commitsByAuthor := []
    fileTypes := []
    fileChanges := ⟨0, 0, 0, 0⟩ }

/-- The author merge of reportService.js lines 152-164:
initialise-if-absent, then add all three components. -/
def addAuthorStats (m : List (String × AuthorStats)) (k : String)
    (s : AuthorStats) : List (String × AuthorStats) :=
  updAuthor m k (fun x =>
    ⟨x.commits + s.commits, x.additions + s.additions, x.deletions + s.deletions⟩)

/-- One report as consumed by the summary fold: the repository's windowed
commit list and its (possibly `null`) analysis. -/
structure RepoReport where
  commits : List CommitEnv
  analysis : Option Analysis
deriving DecidableEq, Repr

/-- The body of the `repoReports.forEach` in `generateSummaryStats`
(reportService.js lines 129-166): always add the commit count; when the
analysis is present, add its totals and merge its maps key-wise. -/
def addRepoToSummary (s : Summary) (repo : RepoReport) : Summary :=
  let s := { s with totalCommits := s.totalCommits + repo.commits.length }
  match repo.analysis with
  | none => s
  | some a =>
    let ft := a.fileTypes.foldl (fun m tc => bumpCount m tc.1 tc.2) s.fileTypes
    let ca := a.commitsByAuthor.foldl (fun m p => addAuthorStats m p.1 p.2) s.commitsByAuthor
    { s with
      totalFilesChanged := s.totalFilesChanged + a.totalFilesChanged
      totalAdditions := s.totalAdditions + a.lineChanges.additions
      totalDeletions := s.totalDeletions + a.lineChanges.deletions
      fileTypes := ft
      fileChanges :=
        ⟨s.fileChanges.added + a.fileChanges.added,
         s.fileChanges.modified + a.fileChanges.modified,
         s.fileChanges.deleted + a.fileChanges.deleted,
         s.fileChanges.renamed + a.fileChanges.renamed⟩
      commitsByAuthor := ca }

/-- `generateSummaryStats` (reportService.js lines 112-169). -/
def generateSummaryStats (repoReports : List RepoReport) : Summary :=
  repoReports.foldl addRepoToSummary initSummary

/-- The inputs determining one repository's report: whether the
repository-info query failed, whether the repository is empty, and the
windowed commit list (with per-commit git query results). -/
structure RepoData where
  infoError : Bool
  isEmpty : Bool
  commits : List CommitEnv
deriving DecidableEq, Repr

/-- `generateRepoReport` (reportService.js lines 12-54): an info error,
an empty repository or an empty windowed commit list yield a report with
no commits and a `null` analysis; otherwise the commits are analysed. -/
def generateRepoReport (cfg : Config) (r : RepoData) : RepoReport :=
  if r.infoError then { commits := [], analysis := none }
  else if r.isEmpty then { commits := [], analysis := none }
  else if r.commits.length = 0 then { commits := [], analysis := none }
  else { commits := r.commits, analysis := analyzeCodeChanges cfg r.commits }

/-- The stable sort comparator `(a, b) => b.commits.length - a.commits.length`
of reportService.js line 92. -/
def commitCountDesc (a b : RepoReport) : Bool :=
  b.commits.length ≤ a.commits.length

/-- The full-report model built by `generateFullReport`
(reportService.js lines 62-105). -/
structure FullReport where
  totalRepos : Nat
  reposWithCommits : Nat
  summary : Summary
  repositories : List RepoReport
deriving DecidableEq, Repr

/-- `generateFullReport` (reportService.js lines 62-105): build one report
per repository, keep only those with at least one windowed commit, sort by
descending commit count, and summarise. -/
def generateFullReport (cfg : Config) (repos : List RepoData) : FullReport :=
  let repoReports :=
    (repos.map (generateRepoReport cfg)).filter (fun r => decide (0 < r.commits.length))
  let sorted := repoReports.mergeSort commitCountDesc
  { totalRepos := repos.length
    reposWithCommits := sorted.length
    summary := generateSummaryStats sorted
    repositories := sorted }

/-! ### Association-list map lemmas -/

theorem lookupCount_bumpCount (m : List (String × Nat)) (k k' : String) (d : Nat) :
    lookupCount (bumpCount m k d) k' =
      if k' = k then some ((lookupCount m k').getD 0 + d) else lookupCount m k' := by
  induction m with
  | nil =>
    by_cases h : k' = k
    · simp [bumpCount, lookupCount, h]
    · simp [bumpCount, lookupCount, h, Ne.symm h]
  | cons p rest ih =>
    obtain ⟨a, v⟩ := p
    by_cases hak : a = k
    · subst hak
      by_cases hk : a = k'
      · simp [bumpCount, lookupCount, hk]
      · simp [bumpCount, lookupCount, hk, Ne.symm hk]
    · by_cases hk' : a = k'
      · have hkk : ¬k' = k := fun h => hak (hk'.trans h)
        simp [bumpCount, hak, lookupCount, hk', hkk]
      · simp [bumpCount, hak, lookupCount, hk', ih]

theorem keys_bumpCount (m : List (String × Nat)) (k : String) (d : Nat) :
    (bumpCount m k d).map Prod.fst =
      if k ∈ m.map Prod.fst then m.map Prod.fst else m.map Prod.fst ++ [k] := by
  induction m with
  | nil => simp [bumpCount]
  | cons p rest ih =>
    obtain ⟨a, v⟩ := p
    by_cases hak : a = k
    · subst hak
      simp [bumpCount]
    · simp only [bumpCount, if_neg hak, List.map_cons]
      rw [ih]
      by_cases hk : k ∈ rest.map Prod.fst
      · simp [hk, Ne.symm hak]
      · simp [hk, Ne.symm hak]

theorem snd_sum_bumpCount (m : List (String × Nat)) (k : String) (d : Nat) :
    ((bumpCount m k d).map Prod.snd).sum = (m.map Prod.snd).sum + d := by
  induction m with
  | nil => simp [bumpCount]
  | cons p rest ih =>
    obtain ⟨a, v⟩ := p
    by_cases hak : a = k
    · subst hak
      simp [bumpCount]
      omega
    · simp [bumpCount, hak, ih]
      omega

theorem lookupAuthorOpt_updAuthor (m : List (String × AuthorStats)) (k k' : String)
    (f : AuthorStats → AuthorStats) :
    lookupAuthorOpt (updAuthor m k f) k' =
      if k' = k then some (f (lookupAuthor m k)) else lookupAuthorOpt m k' := by
  induction m with
  | nil =>
    by_cases h : k' = k
    · simp [updAuthor, lookupAuthorOpt, lookupAuthor, h]
    · simp [updAuthor, lookupAuthorOpt, h, Ne.symm h]
  | cons p rest ih =>
    obtain ⟨a, v⟩ := p
    by_cases hak : a = k
    · subst hak
      by_cases hk : a = k'
      · simp [updAuthor, lookupAuthorOpt, lookupAuthor, hk]
      · simp [updAuthor, lookupAuthorOpt, lookupAuthor, hk, Ne.symm hk]
    · by_cases hk' : a = k'
      · have hkk : ¬k' = k := fun h => hak (hk'.trans h)
        simp [updAuthor, hak, lookupAuthorOpt, hk', hkk]
      · simp [updAuthor, hak, lookupAuthorOpt, hk', ih, lookupAuthor, Ne.symm hak]

/-- Total commit count over the author map. -/
def sumCommits (m : List (String × AuthorStats)) : Nat :=
  (m.map (fun p => p.2.commits)).sum

theorem sumCommits_updAuthor_inc (m : List (String × AuthorStats)) (k : String)
    (f : AuthorStats → AuthorStats) (hf : ∀ s, (f s).commits = s.commits + 1) :
    sumCommits (updAuthor m k f) = sumCommits m + 1 := by
  induction m with
  | nil => simp [updAuthor, sumCommits, hf]
  | cons p rest ih =>
    obtain ⟨a, v⟩ := p
    by_cases hak : a = k
    · subst hak
      simp [updAuthor, sumCommits, hf]
      omega
    · simp only [updAuthor, if_neg hak]
      simp only [sumCommits, List.map_cons, List.sum_cons] at ih ⊢
      omega

theorem sumCommits_updAuthor_keep (m : List (String × AuthorStats)) (k : String)
    (f : AuthorStats → AuthorStats) (hf : ∀ s, (f s).commits = s.commits) :
    sumCommits (updAuthor m k f) = sumCommits m := by
  induction m with
  | nil => simp [updAuthor, sumCommits, hf]
  | cons p rest ih =>
    obtain ⟨a, v⟩ := p
    by_cases hak : a = k
    · subst hak
      simp [updAuthor, sumCommits, hf]
    · simp only [updAuthor, if_neg hak]
      simp only [sumCommits, List.map_cons, List.sum_cons] at ih ⊢
      omega

/-! ### First-seen key order -/

/-- The strings of a list not yet seen, each at its first occurrence, in
order of first occurrence. -/
def newKeys (seen : List String) : List String → List String
  | [] => []
  | k :: ks => if k ∈ seen then newKeys seen ks else k :: newKeys (seen ++ [k]) ks

theorem map_path_uniqByPathGo (l : List ChangedRec) :
    ∀ seen, (uniqByPathGo seen l).map ChangedRec.path = newKeys seen (l.map ChangedRec.path) := by
  induction l with
  | nil => intro seen; simp [uniqByPathGo, newKeys]
  | cons r rest ih =>
    intro seen
    by_cases h : r.path ∈ seen <;> simp [uniqByPathGo, newKeys, h, ih]

theorem newKeys_length_le (l : List String) :
    ∀ seen, (newKeys seen l).length ≤ l.length := by
  induction l with
  | nil => intro seen; simp [newKeys]
  | cons k ks ih =>
    intro seen
    by_cases h : k ∈ seen
    · simp only [newKeys, if_pos h]
      exact Nat.le_succ_of_le (ih seen)
    · simp only [newKeys, if_neg h, List.length_cons]
      exact Nat.succ_le_succ (ih (seen ++ [k]))

theorem mem_newKeys (l : List String) :
    ∀ seen p, p ∈ newKeys seen l ↔ p ∈ l ∧ p ∉ seen := by
  induction l with
  | nil => intro seen p; simp [newKeys]
  | cons k ks ih =>
    intro seen p
    by_cases h : k ∈ seen
    · rw [newKeys, if_pos h, ih]
      constructor
      · rintro ⟨hp, hs⟩
        exact ⟨List.mem_cons_of_mem _ hp, hs⟩
      · rintro ⟨hp, hs⟩
        rcases List.mem_cons.mp hp with rfl | hp
        · exact absurd h hs
        · exact ⟨hp, hs⟩
    · rw [newKeys, if_neg h]
      constructor
      · intro hp
        rcases List.mem_cons.mp hp with rfl | hp
        · exact ⟨List.mem_cons_self _ _, h⟩
        · obtain ⟨h1, h2⟩ := (ih (seen ++ [k]) p).mp hp
          simp only [List.mem_append, List.mem_singleton] at h2
          push_neg at h2
          exact ⟨List.mem_cons_of_mem _ h1, h2.1⟩
      · rintro ⟨hp, hs⟩
        rcases List.mem_cons.mp hp with rfl | hp
        · exact List.mem_cons_self _ _
        · by_cases hpk : p = k
          · subst hpk; exact List.mem_cons_self _ _
          · refine List.mem_cons_of_mem _ ((ih (seen ++ [k]) p).mpr ⟨hp, ?_⟩)
            simp [hs, hpk]

theorem newKeys_nodup (l : List String) :
    ∀ seen, (newKeys seen l).Nodup := by
  induction l with
  | nil => intro seen; simp [newKeys]
  | cons k ks ih =>
    intro seen
    by_cases h : k ∈ seen
    · simpa [newKeys, h] using ih seen
    · rw [newKeys, if_neg h]
      refine List.nodup_cons.mpr ⟨?_, ih (seen ++ [k])⟩
      intro hk
      have := ((mem_newKeys ks (seen ++ [k]) k).mp hk).2
      simp at this

theorem newKeys_length_eq_iff (l : List String) :
    ∀ seen, (newKeys seen l).length = l.length ↔ l.Nodup ∧ ∀ p ∈ l, p ∉ seen := by
  induction l with
  | nil => intro seen; simp [newKeys]
  | cons k ks ih =>
    intro seen
    by_cases h : k ∈ seen
    · rw [newKeys, if_pos h]
      constructor
      · intro hlen
        exact absurd hlen (Nat.ne_of_lt (Nat.lt_succ_of_le (newKeys_length_le ks seen)))
      · rintro ⟨-, hall⟩
        exact absurd h (hall k (List.mem_cons_self _ _))
    · rw [newKeys, if_neg h]
      simp only [List.length_cons, Nat.succ.injEq, ih (seen ++ [k]), List.nodup_cons]
      constructor
      · rintro ⟨hnd, hall⟩
        refine ⟨⟨?_, hnd⟩, ?_⟩
        · intro hk
          have := hall k hk
          simp at this
        · intro p hp
          rcases List.mem_cons.mp hp with rfl | hp
          · exact h
          · have := hall p hp
            simp only [List.mem_append, List.mem_singleton] at this
            push_neg at this
            exact this.1
      · rintro ⟨⟨hknks, hnd⟩, hall⟩
        refine ⟨hnd, ?_⟩
        intro p hp
        have hps := hall p (List.mem_cons_of_mem _ hp)
        have hpk : p ≠ k := fun hpk => hknks (hpk ▸ hp)
        simp [hps, hpk]

theorem keys_foldl_bump (l : List ChangedRec) :
    ∀ m : List (String × Nat),
      (l.foldl (fun m r => bumpCount m r.path 1) m).map Prod.fst =
        m.map Prod.fst ++ newKeys (m.map Prod.fst) (l.map ChangedRec.path) := by
  induction l with
  | nil => intro m; simp [newKeys]
  | cons r rest ih =>
    intro m
    simp only [List.foldl_cons, List.map_cons]
    rw [ih]
    rw [keys_bumpCount]
    by_cases h : r.path ∈ m.map Prod.fst
    · rw [if_pos h, newKeys, if_pos h]
    · rw [if_neg h, newKeys, if_neg h]
      simp

/-! ### Characterisation of the per-commit fold -/

/-- The fileTypes step of the `changedFiles.forEach` body for one file. -/
def bumpFileType (cfg : Config) (m : List (String × Nat)) (f : FileChange) :
    List (String × Nat) :=
  let ext := jsToLower (extname f.path)
  if ext = "" then m
  else if cfg.ignoreFileTypes.contains ext then m
  else bumpCount m ext 1

theorem foldChangedFiles_eq (cfg : Config) (chash : String) (files : List FileChange) :
    ∀ st : Analysis × List ChangedRec,
      foldChangedFiles cfg st chash files =
        ({ st.1 with
            fileTypes := files.foldl (bumpFileType cfg) st.1.fileTypes
            fileChanges := files.foldl (fun fc f => applyChangeType fc f.type) st.1.fileChanges },
         st.2 ++ files.map (fun f => { path := f.path, type := f.type, commit := chash })) := by
  induction files with
  | nil => intro st; simp [foldChangedFiles]
  | cons f fs ih =>
    intro st
    simp only [foldChangedFiles, List.foldl_cons] at ih ⊢
    rw [ih]
    simp only [bumpFileType, List.map_cons]
    by_cases h1 : jsToLower (extname f.path) = ""
    · simp [h1]
    · by_cases h2 : jsToLower (extname f.path) ∈ cfg.ignoreFileTypes
      · simp [h1, h2]
      · simp [h1, h2]

theorem foldChangedFiles_lineChanges (cfg : Config) (chash : String)
    (files : List FileChange) (st : Analysis × List ChangedRec) :
    (foldChangedFiles cfg st chash files).1.lineChanges = st.1.lineChanges := by
  rw [foldChangedFiles_eq]

theorem foldChangedFiles_commitsByAuthor (cfg : Config) (chash : String)
    (files : List FileChange) (st : Analysis × List ChangedRec) :
    (foldChangedFiles cfg st chash files).1.commitsByAuthor = st.1.commitsByAuthor := by
  rw [foldChangedFiles_eq]

theorem foldChangedFiles_totalCommits (cfg : Config) (chash : String)
    (files : List FileChange) (st : Analysis × List ChangedRec) :
    (foldChangedFiles cfg st chash files).1.totalCommits = st.1.totalCommits := by
  rw [foldChangedFiles_eq]

/-- All git queries the loop body issues for this commit succeed. -/
def queriesOk (c : CommitEnv) : Bool :=
  if c.isFirstCommit then c.lsTree.isSome && c.showStat.isSome
  else c.diffSummary1.isSome && c.diffNameStatus.isSome && c.diffSummary2.isSome

/-- The first query the loop body issues for this commit fails: `ls-tree`
or `show --stat` for a root commit (both precede every mutation), the
first diff-summary for a non-root commit. -/
def zeroContribFail (c : CommitEnv) : Bool :=
  if c.isFirstCommit then c.lsTree.isNone || c.showStat.isNone
  else c.diffSummary1.isNone

/-- The additions this commit reports towards `lineChanges`: the parsed
stat-regex group for a root commit, the diff-summary insertions
otherwise. -/
def commitAdds (c : CommitEnv) : Nat :=
  if c.isFirstCommit then
    match c.showStat with
    | some s => ((searchStat s.data).getD (0, 0)).1
    | none => 0
  else (c.diffSummary1.getD (0, 0)).1

/-- The deletions this commit reports towards `lineChanges`. -/
def commitDels (c : CommitEnv) : Nat :=
  if c.isFirstCommit then
    match c.showStat with
    | some s => ((searchStat s.data).getD (0, 0)).2
    | none => 0
  else (c.diffSummary1.getD (0, 0)).2

/-- The additions this commit reports towards its author's record: zero
for a root commit, the second diff-summary insertions otherwise. -/
def authorAdds (c : CommitEnv) : Nat :=
  if c.isFirstCommit then 0 else (c.diffSummary2.getD (0, 0)).1

/-- The deletions this commit reports towards its author's record. -/
def authorDels (c : CommitEnv) : Nat :=
  if c.isFirstCommit then 0 else (c.diffSummary2.getD (0, 0)).2

/-- Sum of the four change-type counters. -/
def fcSum (fc : FileChangesCounts) : Nat :=
  fc.added + fc.modified + fc.deleted + fc.renamed

/-- The change types that have a counter in `fileChanges`. -/
def isCounted (t : String) : Bool :=
  t == "新增" || t == "修改" || t == "删除" || t == "重命名"

/-- Number of records in the changed-file list whose type has a counter. -/
def countP4 (l : List ChangedRec) : Nat :=
  l.countP (fun r => isCounted r.type)

theorem lookupAuthor_updAuthor (m : List (String × AuthorStats)) (k k' : String)
    (f : AuthorStats → AuthorStats) :
    lookupAuthor (updAuthor m k f) k' =
      if k' = k then f (lookupAuthor m k) else lookupAuthor m k' := by
  unfold lookupAuthor
  rw [lookupAuthorOpt_updAuthor]
  split <;> simp [lookupAuthor]

theorem fcSum_applyChangeType (fc : FileChangesCounts) (t : String) :
    fcSum (applyChangeType fc t) = fcSum fc + (if isCounted t then 1 else 0) := by
  by_cases h1 : t = "新增"
  · simp [applyChangeType, isCounted, fcSum, h1]; omega
  · by_cases h2 : t = "修改"
    · simp [applyChangeType, isCounted, fcSum, h1, h2]; omega
    · by_cases h3 : t = "删除"
      · simp [applyChangeType, isCounted, fcSum, h1, h2, h3]; omega
      · by_cases h4 : t = "重命名"
        · simp [applyChangeType, isCounted, fcSum, h1, h2, h3, h4]; omega
        · simp [applyChangeType, isCounted, fcSum, h1, h2, h3, h4]

theorem fcSum_foldl_applyChangeType (files : List FileChange) :
    ∀ fc : FileChangesCounts,
      fcSum (files.foldl (fun fc f => applyChangeType fc f.type) fc) =
        fcSum fc + files.countP (fun f => isCounted f.type) := by
  induction files with
  | nil => intro fc; simp
  | cons f fs ih =>
    intro fc
    rw [List.foldl_cons, ih, fcSum_applyChangeType, List.countP_cons]
    by_cases h : isCounted f.type
    · simp [h]; omega
    · simp [h]

theorem processCommit_totalCommits (cfg : Config) (st : Analysis × List ChangedRec)
    (c : CommitEnv) :
    (processCommit cfg st c).1.totalCommits = st.1.totalCommits := by
  obtain ⟨ch, ca, cf, clt, cst, cd1, cdn, cd2⟩ := c
  cases cf
  · simp only [processCommit]
    cases cd1 with
    | none => simp
    | some p =>
      obtain ⟨i, d⟩ := p
      cases cdn with
      | none => simp [addLineChanges]
      | some diff =>
        cases cd2 with
        | none =>
          simp [bumpAuthorCommits, foldChangedFiles_totalCommits, addLineChanges]
        | some p2 =>
          obtain ⟨i2, d2⟩ := p2
          simp [bumpAuthorLines, bumpAuthorCommits, foldChangedFiles_totalCommits,
            addLineChanges]
  · simp only [processCommit]
    cases clt with
    | none => simp
    | some files =>
      cases cst with
      | none => simp
      | some s =>
        cases hss : searchStat s.data with
        | none =>
          simp [hss, bumpAuthorCommits, foldChangedFiles_totalCommits]
        | some p =>
          obtain ⟨i, d⟩ := p
          simp [hss, bumpAuthorCommits, foldChangedFiles_totalCommits, addLineChanges]

theorem processCommit_noop (cfg : Config) (st : Analysis × List ChangedRec)
    (c : CommitEnv) (h : zeroContribFail c = true) :
    processCommit cfg st c = st := by
  obtain ⟨ch, ca, cf, clt, cst, cd1, cdn, cd2⟩ := c
  cases cf
  · simp only [zeroContribFail, Bool.if_false_left] at h
    cases cd1 with
    | none => simp [processCommit]
    | some p => simp at h
  · simp only [zeroContribFail] at h
    cases clt with
    | none => simp [processCommit]
    | some files =>
      cases cst with
      | none => simp [processCommit]
      | some s => simp at h

theorem processCommit_lineChanges (cfg : Config) (st : Analysis × List ChangedRec)
    (c : CommitEnv) (h : queriesOk c = true) :
    (processCommit cfg st c).1.lineChanges.additions
        = st.1.lineChanges.additions + commitAdds c ∧
      (processCommit cfg st c).1.lineChanges.deletions
        = st.1.lineChanges.deletions + commitDels c := by
  obtain ⟨ch, ca, cf, clt, cst, cd1, cdn, cd2⟩ := c
  cases cf
  · simp only [queriesOk, Bool.if_false_left] at h
    cases cd1 with
    | none => simp at h
    | some p =>
      obtain ⟨i, d⟩ := p
      cases cdn with
      | none => simp at h
      | some diff =>
        cases cd2 with
        | none => simp at h
        | some p2 =>
          obtain ⟨i2, d2⟩ := p2
          constructor <;>
            simp [processCommit, bumpAuthorLines, bumpAuthorCommits,
              foldChangedFiles_lineChanges, addLineChanges, commitAdds, commitDels]
  · simp only [queriesOk] at h
    cases clt with
    | none => simp at h
    | some files =>
      cases cst with
      | none => simp at h
      | some s =>
        cases hss : searchStat s.data with
        | none =>
          constructor <;>
            simp [processCommit, hss, bumpAuthorCommits,
              foldChangedFiles_lineChanges, commitAdds, commitDels]
        | some p =>
          obtain ⟨i, d⟩ := p
          constructor <;>
            simp [processCommit, hss, bumpAuthorCommits,
              foldChangedFiles_lineChanges, addLineChanges, commitAdds, commitDels]

theorem processCommit_author (cfg : Config) (st : Analysis × List ChangedRec)
    (c : CommitEnv) (who : String) (h : queriesOk c = true) :
    lookupAuthor (processCommit cfg st c).1.commitsByAuthor who =
      (if who = c.author then
        ⟨(lookupAuthor st.1.commitsByAuthor who).commits + 1,
         (lookupAuthor st.1.commitsByAuthor who).additions + authorAdds c,
         (lookupAuthor st.1.commitsByAuthor who).deletions + authorDels c⟩
      else lookupAuthor st.1.commitsByAuthor who) := by
  obtain ⟨ch, ca, cf, clt, cst, cd1, cdn, cd2⟩ := c
  cases cf
  · simp only [queriesOk, Bool.if_false_left] at h
    cases cd1 with
    | none => simp at h
    | some p =>
      obtain ⟨i, d⟩ := p
      cases cdn with
      | none => simp at h
      | some diff =>
        cases cd2 with
        | none => simp at h
        | some p2 =>
          obtain ⟨i2, d2⟩ := p2
          simp only [processCommit, Bool.false_eq_true, if_false, eq_self_iff_true, if_true, bumpAuthorLines, bumpAuthorCommits,
            foldChangedFiles_commitsByAuthor, addLineChanges]
          simp only [lookupAuthor_updAuthor]
          by_cases hw : who = ca
          · simp [hw, authorAdds, authorDels]
          · simp [hw]
  · simp only [queriesOk] at h
    cases clt with
    | none => simp at h
    | some files =>
      cases cst with
      | none => simp at h
      | some s =>
        cases hss : searchStat s.data with
        | none =>
          simp only [processCommit, Bool.false_eq_true, if_false, eq_self_iff_true, if_true, hss, bumpAuthorCommits,
            foldChangedFiles_commitsByAuthor]
          simp only [lookupAuthor_updAuthor]
          by_cases hw : who = ca
          · simp [hw, authorAdds, authorDels]
          · simp [hw]
        | some p =>
          obtain ⟨i, d⟩ := p
          simp only [processCommit, Bool.false_eq_true, if_false, eq_self_iff_true, if_true, hss, bumpAuthorCommits,
            foldChangedFiles_commitsByAuthor, addLineChanges]
          simp only [lookupAuthor_updAuthor]
          by_cases hw : who = ca
          · simp [hw, authorAdds, authorDels]
          · simp [hw]

theorem processCommit_sumCommits (cfg : Config) (st : Analysis × List ChangedRec)
    (c : CommitEnv) :
    sumCommits (processCommit cfg st c).1.commitsByAuthor
      ≤ sumCommits st.1.commitsByAuthor + 1 := by
  obtain ⟨ch, ca, cf, clt, cst, cd1, cdn, cd2⟩ := c
  cases cf
  · cases cd1 with
    | none => simp [processCommit]
    | some p =>
      obtain ⟨i, d⟩ := p
      cases cdn with
      | none => simp [processCommit, addLineChanges]
      | some diff =>
        cases cd2 with
        | none =>
          simp only [processCommit, Bool.false_eq_true, if_false, eq_self_iff_true, if_true, bumpAuthorCommits,
            foldChangedFiles_commitsByAuthor, addLineChanges]
          exact le_of_eq (sumCommits_updAuthor_inc _ _ _ (fun s => rfl))
        | some p2 =>
          obtain ⟨i2, d2⟩ := p2
          simp only [processCommit, Bool.false_eq_true, if_false, eq_self_iff_true, if_true, bumpAuthorLines, bumpAuthorCommits,
            foldChangedFiles_commitsByAuthor, addLineChanges]
          have h1 := sumCommits_updAuthor_keep
            (updAuthor st.1.commitsByAuthor ca (fun s => { s with commits := s.commits + 1 }))
            ca (fun s => { s with additions := s.additions + i2, deletions := s.deletions + d2 })
            (fun s => rfl)
          have h2 := sumCommits_updAuthor_inc st.1.commitsByAuthor ca
            (fun s => { s with commits := s.commits + 1 }) (fun s => rfl)
          omega
  · cases clt with
    | none => simp [processCommit]
    | some files =>
      cases cst with
      | none => simp [processCommit]
      | some s =>
        cases hss : searchStat s.data with
        | none =>
          simp only [processCommit, Bool.false_eq_true, if_false, eq_self_iff_true, if_true, hss, bumpAuthorCommits,
            foldChangedFiles_commitsByAuthor]
          exact le_of_eq (sumCommits_updAuthor_inc _ _ _ (fun s => rfl))
        | some p =>
          obtain ⟨i, d⟩ := p
          simp only [processCommit, Bool.false_eq_true, if_false, eq_self_iff_true, if_true, hss, bumpAuthorCommits,
            foldChangedFiles_commitsByAuthor, addLineChanges]
          exact le_of_eq (sumCommits_updAuthor_inc _ _ _ (fun s => rfl))

theorem processCommit_fcSum (cfg : Config) (st : Analysis × List ChangedRec)
    (c : CommitEnv) :
    fcSum (processCommit cfg st c).1.fileChanges + countP4 st.2
      = fcSum st.1.fileChanges + countP4 (processCommit cfg st c).2 := by
  obtain ⟨ch, ca, cf, clt, cst, cd1, cdn, cd2⟩ := c
  cases cf
  · cases cd1 with
    | none => simp [processCommit]
    | some p =>
      obtain ⟨i, d⟩ := p
      cases cdn with
      | none => simp [processCommit, addLineChanges]
      | some diff =>
        cases cd2 with
        | none =>
          simp only [processCommit, Bool.false_eq_true, if_false, eq_self_iff_true, if_true, bumpAuthorLines, bumpAuthorCommits]
          rw [foldChangedFiles_eq]
          simp only [addLineChanges, fcSum_foldl_applyChangeType, countP4,
            List.countP_append, List.countP_map]
          have : ((fun r : ChangedRec => isCounted r.type) ∘
              fun f : FileChange => ChangedRec.mk f.path f.type ch)
              = fun f : FileChange => isCounted f.type := rfl
          rw [this]
          omega
        | some p2 =>
          obtain ⟨i2, d2⟩ := p2
          simp only [processCommit, Bool.false_eq_true, if_false, eq_self_iff_true, if_true, bumpAuthorLines, bumpAuthorCommits]
          rw [foldChangedFiles_eq]
          simp only [addLineChanges, fcSum_foldl_applyChangeType, countP4,
            List.countP_append, List.countP_map]
          have : ((fun r : ChangedRec => isCounted r.type) ∘
              fun f : FileChange => ChangedRec.mk f.path f.type ch)
              = fun f : FileChange => isCounted f.type := rfl
          rw [this]
          omega
  · cases clt with
    | none => simp [processCommit]
    | some files =>
      cases cst with
      | none => simp [processCommit]
      | some s =>
        cases hss : searchStat s.data with
        | none =>
          simp only [processCommit, Bool.false_eq_true, if_false, eq_self_iff_true, if_true, hss, bumpAuthorCommits]
          rw [foldChangedFiles_eq]
          simp only [fcSum_foldl_applyChangeType, countP4,
            List.countP_append, List.countP_map]
          have : ((fun r : ChangedRec => isCounted r.type) ∘
              fun f : FileChange => ChangedRec.mk f.path f.type ch)
              = fun f : FileChange => isCounted f.type := rfl
          rw [this]
          omega
        | some p =>
          obtain ⟨i, d⟩ := p
          simp only [processCommit, Bool.false_eq_true, if_false, eq_self_iff_true, if_true, hss, bumpAuthorCommits]
          rw [foldChangedFiles_eq]
          simp only [addLineChanges, fcSum_foldl_applyChangeType, countP4,
            List.countP_append, List.countP_map]
          have : ((fun r : ChangedRec => isCounted r.type) ∘
              fun f : FileChange => ChangedRec.mk f.path f.type ch)
              = fun f : FileChange => isCounted f.type := rfl
          rw [this]
          omega

/-! ### Fold-level lemmas over the commit loop -/

theorem foldl_processCommit_totalCommits (cfg : Config) (l : List CommitEnv) :
    ∀ st, (l.foldl (processCommit cfg) st).1.totalCommits = st.1.totalCommits := by
  induction l with
  | nil => intro st; rfl
  | cons c rest ih =>
    intro st
    rw [List.foldl_cons, ih, processCommit_totalCommits]

theorem foldl_processCommit_lineChanges (cfg : Config) (l : List CommitEnv)
    (hok : ∀ c ∈ l, queriesOk c = true) :
    ∀ st, (l.foldl (processCommit cfg) st).1.lineChanges.additions
          = st.1.lineChanges.additions + (l.map commitAdds).sum
        ∧ (l.foldl (processCommit cfg) st).1.lineChanges.deletions
          = st.1.lineChanges.deletions + (l.map commitDels).sum := by
  induction l with
  | nil => intro st; simp
  | cons c rest ih =>
    intro st
    have hc := processCommit_lineChanges cfg st c (hok c (List.mem_cons_self _ _))
    have hr := ih (fun x hx => hok x (List.mem_cons_of_mem _ hx)) (processCommit cfg st c)
    rw [List.foldl_cons]
    constructor
    · rw [hr.1, hc.1, List.map_cons, List.sum_cons]; omega
    · rw [hr.2, hc.2, List.map_cons, List.sum_cons]; omega

theorem foldl_processCommit_author (cfg : Config) (l : List CommitEnv) (who : String)
    (hok : ∀ c ∈ l, queriesOk c = true) :
    ∀ st,
      (lookupAuthor (l.foldl (processCommit cfg) st).1.commitsByAuthor who).commits
          = (lookupAuthor st.1.commitsByAuthor who).commits
            + l.countP (fun c => c.author == who)
        ∧ (lookupAuthor (l.foldl (processCommit cfg) st).1.commitsByAuthor who).additions
          = (lookupAuthor st.1.commitsByAuthor who).additions
            + ((l.filter (fun c => c.author == who)).map authorAdds).sum
        ∧ (lookupAuthor (l.foldl (processCommit cfg) st).1.commitsByAuthor who).deletions
          = (lookupAuthor st.1.commitsByAuthor who).deletions
            + ((l.filter (fun c => c.author == who)).map authorDels).sum := by
  induction l with
  | nil => intro st; simp
  | cons c rest ih =>
    intro st
    have hc := processCommit_author cfg st c who (hok c (List.mem_cons_self _ _))
    have hr := ih (fun x hx => hok x (List.mem_cons_of_mem _ hx)) (processCommit cfg st c)
    rw [List.foldl_cons]
    by_cases hw : c.author = who
    · rw [if_pos hw.symm] at hc
      refine ⟨?_, ?_, ?_⟩
      · rw [hr.1, hc, List.countP_cons]
        simp only [hw, beq_self_eq_true, if_pos]
        omega
      · rw [hr.2.1, hc, List.filter_cons]
        simp only [hw, beq_self_eq_true, if_pos, List.map_cons, List.sum_cons]
        omega
      · rw [hr.2.2, hc, List.filter_cons]
        simp only [hw, beq_self_eq_true, if_pos, List.map_cons, List.sum_cons]
        omega
    · rw [if_neg (fun h => hw h.symm)] at hc
      have hbeq : (c.author == who) = false := beq_eq_false_iff_ne.mpr hw
      refine ⟨?_, ?_, ?_⟩
      · rw [hr.1, hc, List.countP_cons, hbeq]
        simp
      · rw [hr.2.1, hc, List.filter_cons, hbeq]
        simp
      · rw [hr.2.2, hc, List.filter_cons, hbeq]
        simp

theorem foldl_processCommit_sumCommits (cfg : Config) (l : List CommitEnv) :
    ∀ st, sumCommits (l.foldl (processCommit cfg) st).1.commitsByAuthor
      ≤ sumCommits st.1.commitsByAuthor + l.length := by
  induction l with
  | nil => intro st; simp
  | cons c rest ih =>
    intro st
    rw [List.foldl_cons]
    calc sumCommits ((rest.foldl (processCommit cfg) (processCommit cfg st c)).1.commitsByAuthor)
        ≤ sumCommits (processCommit cfg st c).1.commitsByAuthor + rest.length :=
          ih (processCommit cfg st c)
      _ ≤ sumCommits st.1.commitsByAuthor + 1 + rest.length := by
          have := processCommit_sumCommits cfg st c
          omega
      _ = sumCommits st.1.commitsByAuthor + (c :: rest).length := by
          simp [List.length_cons]
          omega

theorem foldl_processCommit_fcSum (cfg : Config) (l : List CommitEnv) :
    ∀ st, fcSum (l.foldl (processCommit cfg) st).1.fileChanges + countP4 st.2
      = fcSum st.1.fileChanges + countP4 (l.foldl (processCommit cfg) st).2 := by
  induction l with
  | nil => intro st; rfl
  | cons c rest ih =>
    intro st
    rw [List.foldl_cons]
    have h1 := ih (processCommit cfg st c)
    have h2 := processCommit_fcSum cfg st c
    omega

theorem foldl_processCommit_skip (cfg : Config) (l1 l2 : List CommitEnv)
    (c : CommitEnv) (h : zeroContribFail c = true) :
    ∀ st, (l1 ++ c :: l2).foldl (processCommit cfg) st
      = (l1 ++ l2).foldl (processCommit cfg) st := by
  intro st
  rw [List.foldl_append, List.foldl_cons, processCommit_noop cfg _ c h,
    ← List.foldl_append]

/-- Unfolding of `analyzeCodeChanges` in the enabled, non-empty case. -/
theorem analyzeCodeChanges_eq_some (cfg : Config) (commits : List CommitEnv)
    (hinc : cfg.includeCodeAnalysis = true) (hne : commits ≠ []) :
    analyzeCodeChanges cfg commits =
      some { (commits.foldl (processCommit cfg) (initAnalysis commits.length, [])).1 with
             totalFilesChanged :=
               (uniqByPath (commits.foldl (processCommit cfg)
                 (initAnalysis commits.length, [])).2).length
             mostChangedFiles :=
               ((countByPath (commits.foldl (processCommit cfg)
                   (initAnalysis commits.length, [])).2).mergeSort countDesc).take 5 } := by
  have h : ¬(¬cfg.includeCodeAnalysis ∨ commits.length = 0) := by
    push_neg
    refine ⟨by simp [hinc], ?_⟩
    simpa using hne
  unfold analyzeCodeChanges
  rw [if_neg h]

/-- Helper: summing a per-author contribution that is zero on root commits
over the author's commits equals summing the raw contribution over the
author's non-root commits. -/
theorem sum_root_zero_filter (l : List CommitEnv) (who : String)
    (g : CommitEnv → Nat) :
    ((l.filter (fun c => c.author == who)).map
        (fun c => if c.isFirstCommit then 0 else g c)).sum
      = ((l.filter (fun c => !c.isFirstCommit && c.author == who)).map g).sum := by
  induction l with
  | nil => simp
  | cons c rest ih =>
    by_cases hw : (c.author == who) = true
    · by_cases hf : c.isFirstCommit
      · simp [List.filter_cons, hw, hf, ih]
      · simp [List.filter_cons, hw, hf, ih]
    · simp only [Bool.not_eq_true] at hw
      simp [List.filter_cons, hw, ih]

theorem sum_authorAdds_filter (l : List CommitEnv) (who : String) :
    ((l.filter (fun c => c.author == who)).map authorAdds).sum
      = ((l.filter (fun c => !c.isFirstCommit && c.author == who)).map
          (fun c => (c.diffSummary2.getD (0, 0)).1)).sum := by
  have h : authorAdds
      = fun c => if c.isFirstCommit then 0 else (c.diffSummary2.getD (0, 0)).1 := rfl
  rw [h, sum_root_zero_filter]

theorem sum_authorDels_filter (l : List CommitEnv) (who : String) :
    ((l.filter (fun c => c.author == who)).map authorDels).sum
      = ((l.filter (fun c => !c.isFirstCommit && c.author == who)).map
          (fun c => (c.diffSummary2.getD (0, 0)).2)).sum := by
  have h : authorDels
      = fun c => if c.isFirstCommit then 0 else (c.diffSummary2.getD (0, 0)).2 := rfl
  rw [h, sum_root_zero_filter]

/-! ### Example commits used by witnesses and counterexamples -/

/-- A root commit whose queries all succeed. -/
def exRootCommit : CommitEnv :=
  { hash := "r0"
    author := "alice"
    isFirstCommit := true
    lsTree := some "100644 blob h1\ta.go\n100644 blob h2\tb.md\n"
    showStat := some " 2 files changed, 7 insertions(+)\n"
    diffSummary1 := none
    diffNameStatus := none
    diffSummary2 := none }

/-- A non-root commit whose queries all succeed. -/
def exModCommit : CommitEnv :=
  { hash := "c1"
    author := "bob"
    isFirstCommit := false
    lsTree := none
    showStat := none
    diffSummary1 := some (5, 3)
    diffNameStatus := some "M\ta.go\nA\tx.ts\n"
    diffSummary2 := some (5, 3) }

/-- A non-root commit whose `--name-status` diff query throws after its
diff-summary query succeeded. -/
def exMidFailCommit : CommitEnv :=
  { hash := "c2"
    author := "bob"
    isFirstCommit := false
    lsTree := none
    showStat := none
    diffSummary1 := some (5, 3)
    diffNameStatus := none
    diffSummary2 := none }

/-- A non-root commit whose first query (the diff summary) throws. -/
def exFirstFailCommit : CommitEnv :=
  { hash := "c3"
    author := "carol"
    isFirstCommit := false
    lsTree := none
    showStat := none
    diffSummary1 := none
    diffNameStatus := none
    diffSummary2 := none }

/-- A non-root commit whose diff reports one copied file. -/
def exCopyCommit : CommitEnv :=
  { hash := "c4"
    author := "bob"
    isFirstCommit := false
    lsTree := none
    showStat := none
    diffSummary1 := some (0, 0)
    diffNameStatus := some "C75\ta.js\tb.js"
    diffSummary2 := some (0, 0) }

/-! ### Claim theorems -/

/-- C1 counterexample: a commit whose name-status diff query errors after
its diff-summary query succeeded still contributes its full line changes
(5 additions here, not 0), so a classification failure is not always a
zero contribution. -/
theorem analyzeCodeChanges_midloop_failure_keeps_partial_lineChanges :
    exMidFailCommit.diffNameStatus = none
      ∧ (analyzeCodeChanges defaultConfig [exMidFailCommit]).map
          (fun a => a.lineChanges.additions) = some 5
      ∧ (analyzeCodeChanges defaultConfig [exMidFailCommit]).map
          (fun a => a.lineChanges.additions) ≠ some 0 :=
  ⟨rfl, rfl, by decide⟩

/-- C1 (amended): when the first query of a commit's classification fails
(`ls-tree` or `show --stat` for a root commit, the diff summary for a
non-root commit) the commit contributes nothing at all — the loop state
after any commit sequence containing it equals the state with the commit
removed — and the analysis of the remaining commits still completes with
a non-null result.  (When a later query fails, the mutations already
applied before the failure persist, as the counterexample shows.) -/
theorem analyzeCodeChanges_first_query_failure_noop (cfg : Config)
    (l1 l2 : List CommitEnv) (c : CommitEnv)
    (hinc : cfg.includeCodeAnalysis = true) (h : zeroContribFail c = true) :
    (∀ st, (l1 ++ c :: l2).foldl (processCommit cfg) st
        = (l1 ++ l2).foldl (processCommit cfg) st)
      ∧ ∃ a, analyzeCodeChanges cfg (l1 ++ c :: l2) = some a := by
  refine ⟨foldl_processCommit_skip cfg l1 l2 c h, ?_⟩
  exact ⟨_, analyzeCodeChanges_eq_some cfg _ hinc (by simp)⟩

theorem analyzeCodeChanges_first_query_failure_noop_witness :
    (∀ st, ([] ++ exFirstFailCommit :: [exModCommit]).foldl (processCommit defaultConfig) st
        = ([] ++ [exModCommit]).foldl (processCommit defaultConfig) st)
      ∧ ∃ a, analyzeCodeChanges defaultConfig ([] ++ exFirstFailCommit :: [exModCommit]) = some a :=
  analyzeCodeChanges_first_query_failure_noop defaultConfig [] [exModCommit]
    exFirstFailCommit rfl (by decide)

/-- C2 counterexample: a copied file produces one FileChange record whose
change type is `复制`, yet the sum of all four `fileChanges` counters is 0:
the counts over the full change-type enum do not add up to the number of
FileChange records. -/
theorem copied_change_not_counted :
    (parseGitDiff "C75\ta.js\tb.js").map (fun f => f.type) = ["复制"]
      ∧ (analyzeCodeChanges defaultConfig [exCopyCommit]).map
          (fun a => fcSum a.fileChanges) = some 0
      ∧ (analyzeCodeChanges defaultConfig [exCopyCommit]).map
          (fun a => a.totalFilesChanged) = some 1 :=
  ⟨rfl, rfl, rfl⟩

/-- C2 (amended): `fileChanges` has counters only for Added, Modified,
Deleted and Renamed; each FileChange with one of those four types
increments exactly one counter, Copied and Unknown changes increment
nothing, and the sum of the four counters equals the number of
changed-file records whose type is one of the four. -/
theorem fileChanges_counts_only_four_types (cfg : Config)
    (commits : List CommitEnv) (hinc : cfg.includeCodeAnalysis = true)
    (hne : commits ≠ []) :
    ∃ a, analyzeCodeChanges cfg commits = some a
      ∧ fcSum a.fileChanges
        = countP4 (commits.foldl (processCommit cfg) (initAnalysis commits.length, [])).2
      ∧ ∀ (fc : FileChangesCounts) (t : String),
          isCounted t = false → applyChangeType fc t = fc := by
  refine ⟨_, analyzeCodeChanges_eq_some cfg commits hinc hne, ?_, ?_⟩
  · have h := foldl_processCommit_fcSum cfg commits (initAnalysis commits.length, [])
    have h0 : countP4 (initAnalysis commits.length, ([] : List ChangedRec)).2 = 0 := rfl
    have h1 : fcSum (initAnalysis commits.length, ([] : List ChangedRec)).1.fileChanges = 0 := rfl
    show fcSum (commits.foldl (processCommit cfg)
        (initAnalysis commits.length, ([] : List ChangedRec))).1.fileChanges
      = countP4 (commits.foldl (processCommit cfg)
        (initAnalysis commits.length, ([] : List ChangedRec))).2
    omega
  · intro fc t ht
    simp only [isCounted, Bool.or_eq_false_iff, beq_eq_false_iff_ne] at ht
    simp [applyChangeType, ht.1.1.1, ht.1.1.2, ht.1.2, ht.2]

theorem fileChanges_counts_only_four_types_witness :
    ∃ a, analyzeCodeChanges defaultConfig [exRootCommit, exModCommit] = some a
      ∧ fcSum a.fileChanges
        = countP4 ([exRootCommit, exModCommit].foldl (processCommit defaultConfig)
            (initAnalysis [exRootCommit, exModCommit].length, [])).2
      ∧ ∀ (fc : FileChangesCounts) (t : String),
          isCounted t = false → applyChangeType fc t = fc :=
  fileChanges_counts_only_four_types defaultConfig [exRootCommit, exModCommit]
    rfl (by decide)

/-- C4: `lineChanges` sums each commit's stat contribution uniformly over
root and non-root commits, while each author's record counts every one of
their commits but accumulates additions/deletions only over their
non-root commits — a root commit never adds to its author's line totals. -/
theorem lineChanges_uniform_author_stats_asymmetric (cfg : Config)
    (commits : List CommitEnv) (hinc : cfg.includeCodeAnalysis = true)
    (hne : commits ≠ []) (hok : ∀ c ∈ commits, queriesOk c = true) :
    ∃ a, analyzeCodeChanges cfg commits = some a
      ∧ a.lineChanges.additions = (commits.map commitAdds).sum
      ∧ a.lineChanges.deletions = (commits.map commitDels).sum
      ∧ ∀ who : String,
          (lookupAuthor a.commitsByAuthor who).commits
              = commits.countP (fun c => c.author == who)
            ∧ (lookupAuthor a.commitsByAuthor who).additions
              = ((commits.filter (fun c => !c.isFirstCommit && c.author == who)).map
                  (fun c => (c.diffSummary2.getD (0, 0)).1)).sum
            ∧ (lookupAuthor a.commitsByAuthor who).deletions
              = ((commits.filter (fun c => !c.isFirstCommit && c.author == who)).map
                  (fun c => (c.diffSummary2.getD (0, 0)).2)).sum := by
  refine ⟨_, analyzeCodeChanges_eq_some cfg commits hinc hne, ?_, ?_, ?_⟩
  · have h := (foldl_processCommit_lineChanges cfg commits hok
      (initAnalysis commits.length, [])).1
    simpa [initAnalysis] using h
  · have h := (foldl_processCommit_lineChanges cfg commits hok
      (initAnalysis commits.length, [])).2
    simpa [initAnalysis] using h
  · intro who
    have h := foldl_processCommit_author cfg commits who hok
      (initAnalysis commits.length, [])
    have e1 : lookupAuthor (initAnalysis commits.length,
        ([] : List ChangedRec)).1.commitsByAuthor who = ⟨0, 0, 0⟩ := rfl
    rw [e1] at h
    refine ⟨by simpa using h.1, ?_, ?_⟩
    · have h2 := h.2.1
      rw [sum_authorAdds_filter] at h2
      simpa using h2
    · have h3 := h.2.2
      rw [sum_authorDels_filter] at h3
      simpa using h3

theorem lineChanges_uniform_author_stats_asymmetric_witness :
    ∃ a, analyzeCodeChanges defaultConfig [exRootCommit, exModCommit] = some a
      ∧ a.lineChanges.additions = 12 := by
  obtain ⟨a, h1, h2, -, -⟩ := lineChanges_uniform_author_stats_asymmetric
    defaultConfig [exRootCommit, exModCommit] rfl (by decide) (by decide)
  refine ⟨a, h1, ?_⟩
  rw [h2]
  rfl

/-- C10: for every non-empty commit list with code analysis enabled the
analysis is produced, its `totalCommits` equals the length of the input
list whatever the per-commit query outcomes, and the author commit counts
sum to at most `totalCommits`. -/
theorem totalCommits_length_and_author_bound (cfg : Config)
    (commits : List CommitEnv) (hinc : cfg.includeCodeAnalysis = true)
    (hne : commits ≠ []) :
    ∃ a, analyzeCodeChanges cfg commits = some a
      ∧ a.totalCommits = commits.length
      ∧ (a.commitsByAuthor.map (fun p => p.2.commits)).sum ≤ a.totalCommits := by
  refine ⟨_, analyzeCodeChanges_eq_some cfg commits hinc hne, ?_, ?_⟩
  · have h := foldl_processCommit_totalCommits cfg commits (initAnalysis commits.length, [])
    simpa [initAnalysis] using h
  · have h1 := foldl_processCommit_sumCommits cfg commits (initAnalysis commits.length, [])
    have h2 := foldl_processCommit_totalCommits cfg commits (initAnalysis commits.length, [])
    have h0 : sumCommits (initAnalysis commits.length,
        ([] : List ChangedRec)).1.commitsByAuthor = 0 := rfl
    have h3 : (initAnalysis commits.length,
        ([] : List ChangedRec)).1.totalCommits = commits.length := rfl
    show sumCommits (commits.foldl (processCommit cfg)
        (initAnalysis commits.length, ([] : List ChangedRec))).1.commitsByAuthor
      ≤ (commits.foldl (processCommit cfg)
        (initAnalysis commits.length, ([] : List ChangedRec))).1.totalCommits
    omega

theorem totalCommits_length_and_author_bound_witness :
    ∃ a, analyzeCodeChanges defaultConfig
          [exRootCommit, exModCommit, exMidFailCommit] = some a
      ∧ a.totalCommits = 3 := by
  obtain ⟨a, h1, h2, -⟩ := totalCommits_length_and_author_bound defaultConfig
    [exRootCommit, exModCommit, exMidFailCommit] rfl (by decide)
  exact ⟨a, h1, h2⟩

/-- The `allChangedFiles` list accumulated by the commit loop of
`analyzeCodeChanges`. -/
def allChangedRecords (cfg : Config) (commits : List CommitEnv) : List ChangedRec :=
  (commits.foldl (processCommit cfg) (initAnalysis commits.length, [])).2

theorem uniqByPath_length_eq_newKeys (l : List ChangedRec) :
    (uniqByPath l).length = (newKeys [] (l.map ChangedRec.path)).length := by
  have h := map_path_uniqByPathGo l []
  have h2 : (uniqByPath l).length = ((uniqByPathGo [] l).map ChangedRec.path).length := by
    simp [uniqByPath]
  rw [h2, h]

/-- C5: `totalFilesChanged` is the number of distinct changed-file paths
(the first-seen path list is duplicate-free and has the same members as
the raw path list); it is at most the number of changed-file records,
with equality iff every changed path occurs in exactly one (commit, file)
record. -/
theorem totalFilesChanged_distinct_paths (cfg : Config)
    (commits : List CommitEnv) (hinc : cfg.includeCodeAnalysis = true)
    (hne : commits ≠ []) :
    ∃ a, analyzeCodeChanges cfg commits = some a
      ∧ a.totalFilesChanged
        = (newKeys [] ((allChangedRecords cfg commits).map ChangedRec.path)).length
      ∧ (newKeys [] ((allChangedRecords cfg commits).map ChangedRec.path)).Nodup
      ∧ (∀ p, p ∈ newKeys [] ((allChangedRecords cfg commits).map ChangedRec.path)
          ↔ p ∈ (allChangedRecords cfg commits).map ChangedRec.path)
      ∧ a.totalFilesChanged ≤ (allChangedRecords cfg commits).length
      ∧ (a.totalFilesChanged = (allChangedRecords cfg commits).length
          ↔ ∀ p ∈ (allChangedRecords cfg commits).map ChangedRec.path,
              ((allChangedRecords cfg commits).map ChangedRec.path).count p = 1) := by
  refine ⟨_, analyzeCodeChanges_eq_some cfg commits hinc hne, ?_, ?_, ?_, ?_, ?_⟩
  · exact uniqByPath_length_eq_newKeys _
  · exact newKeys_nodup _ _
  · intro p
    rw [mem_newKeys]
    simp
  · show (uniqByPath (allChangedRecords cfg commits)).length ≤ _
    rw [uniqByPath_length_eq_newKeys]
    calc (newKeys [] ((allChangedRecords cfg commits).map ChangedRec.path)).length
        ≤ ((allChangedRecords cfg commits).map ChangedRec.path).length :=
          newKeys_length_le _ _
      _ = (allChangedRecords cfg commits).length := List.length_map _ _
  · show (uniqByPath (allChangedRecords cfg commits)).length = _ ↔ _
    rw [uniqByPath_length_eq_newKeys]
    have hlen : (allChangedRecords cfg commits).length
        = ((allChangedRecords cfg commits).map ChangedRec.path).length :=
      (List.length_map _ _).symm
    rw [hlen, newKeys_length_eq_iff]
    simp [List.nodup_iff_count_eq_one]

theorem totalFilesChanged_distinct_paths_witness :
    ∃ a, analyzeCodeChanges defaultConfig [exRootCommit, exModCommit] = some a
      ∧ a.totalFilesChanged = 3
      ∧ a.totalFilesChanged ≤ (allChangedRecords defaultConfig [exRootCommit, exModCommit]).length := by
  obtain ⟨a, h1, h2, -, -, h5, -⟩ := totalFilesChanged_distinct_paths defaultConfig
    [exRootCommit, exModCommit] rfl (by decide)
  refine ⟨a, h1, ?_, h5⟩
  rw [h2]
  rfl

/-! ### Stable top-5 selection -/

theorem mem_mem_sublist_or {α : Type _} {a b : α} :
    ∀ {l : List α}, a ∈ l → b ∈ l → a ≠ b → List.Sublist [a, b] l ∨ List.Sublist [b, a] l := by
  intro l
  induction l with
  | nil => intro h; exact absurd h (List.not_mem_nil _)
  | cons c t ih =>
    intro ha hb hne
    rcases List.mem_cons.mp ha with rfl | ha'
    · have hb' : b ∈ t := by
        rcases List.mem_cons.mp hb with rfl | h
        · exact absurd rfl hne
        · exact h
      exact Or.inl (List.Sublist.cons₂ _ (List.singleton_sublist.mpr hb'))
    · rcases List.mem_cons.mp hb with rfl | hb'
      · exact Or.inr (List.Sublist.cons₂ _ (List.singleton_sublist.mpr ha'))
      · rcases ih ha' hb' hne with h | h
        · exact Or.inl (List.Sublist.cons _ h)
        · exact Or.inr (List.Sublist.cons _ h)

theorem pair_sublist_antisymm {α : Type _} {a b : α} :
    ∀ {l : List α}, l.Nodup → List.Sublist [a, b] l → List.Sublist [b, a] l → a = b := by
  intro l
  induction l with
  | nil => intro _ h _; exact absurd h (by simp)
  | cons c t ih =>
    intro hnd hab hba
    cases hab with
    | cons _ hab' =>
      cases hba with
      | cons _ hba' => exact ih (List.nodup_cons.mp hnd).2 hab' hba'
      | cons₂ hba' =>
        have hbmem : b ∈ t := (List.Sublist.subset hab') (by simp)
        exact absurd hbmem (List.nodup_cons.mp hnd).1
    | cons₂ hab' =>
      cases hba with
      | cons _ hba' =>
        have hamem : a ∈ t := (List.Sublist.subset hba') (by simp)
        exact absurd hamem (List.nodup_cons.mp hnd).1
      | cons₂ hba' => rfl

theorem countDesc_trans (a b c : String × Nat) :
    countDesc a b → countDesc b c → countDesc a c := by
  simp only [countDesc, decide_eq_true_eq]
  omega

theorem countDesc_total (a b : String × Nat) :
    countDesc a b || countDesc b a := by
  simp only [countDesc, Bool.or_eq_true, decide_eq_true_eq]
  omega

theorem countByPath_keys (l : List ChangedRec) :
    (countByPath l).map Prod.fst = newKeys [] (l.map ChangedRec.path) := by
  have h := keys_foldl_bump l []
  simpa [countByPath] using h

/-- C6: `mostChangedFiles` has length at most 5, is sorted by descending
change frequency, and entries with equal frequency appear in the order of
the frequency table, whose keys are exactly the changed paths in order of
first appearance across the commit sequence. -/
theorem mostChangedFiles_top5_sorted_stable (cfg : Config)
    (commits : List CommitEnv) (hinc : cfg.includeCodeAnalysis = true)
    (hne : commits ≠ []) :
    ∃ a, analyzeCodeChanges cfg commits = some a
      ∧ a.mostChangedFiles.length ≤ 5
      ∧ a.mostChangedFiles.Pairwise (fun x y => y.2 ≤ x.2)
      ∧ a.mostChangedFiles.Pairwise
          (fun x y => x.2 = y.2 → List.Sublist [x, y] (countByPath (allChangedRecords cfg commits)))
      ∧ (countByPath (allChangedRecords cfg commits)).map Prod.fst
          = newKeys [] ((allChangedRecords cfg commits).map ChangedRec.path) := by
  refine ⟨_, analyzeCodeChanges_eq_some cfg commits hinc hne, ?_, ?_, ?_, countByPath_keys _⟩
  · show (((countByPath (allChangedRecords cfg commits)).mergeSort countDesc).take 5).length ≤ 5
    have h := List.length_take 5 ((countByPath (allChangedRecords cfg commits)).mergeSort countDesc)
    omega
  · show (((countByPath (allChangedRecords cfg commits)).mergeSort countDesc).take 5).Pairwise
      (fun x y => y.2 ≤ x.2)
    have hsorted := List.sorted_mergeSort countDesc_trans countDesc_total
      (countByPath (allChangedRecords cfg commits))
    have hp := List.Pairwise.sublist (List.take_sublist 5 _) hsorted
    exact hp.imp (fun h => by simpa [countDesc] using h)
  · show (((countByPath (allChangedRecords cfg commits)).mergeSort countDesc).take 5).Pairwise
      (fun x y => x.2 = y.2 → List.Sublist [x, y] (countByPath (allChangedRecords cfg commits)))
    have hkeysNodup : ((countByPath (allChangedRecords cfg commits)).map Prod.fst).Nodup := by
      rw [countByPath_keys]
      exact newKeys_nodup _ _
    have hentriesNodup : (countByPath (allChangedRecords cfg commits)).Nodup :=
      List.Nodup.of_map _ hkeysNodup
    have hperm := List.mergeSort_perm (countByPath (allChangedRecords cfg commits)) countDesc
    have hsortedNodup : ((countByPath (allChangedRecords cfg commits)).mergeSort countDesc).Nodup :=
      hperm.nodup_iff.mpr hentriesNodup
    have hpair : ((countByPath (allChangedRecords cfg commits)).mergeSort countDesc).Pairwise
        (fun x y => x.2 = y.2 → List.Sublist [x, y] (countByPath (allChangedRecords cfg commits))) := by
      rw [List.pairwise_iff_forall_sublist]
      intro a b hab heq
      have habNodup : ([a, b] : List (String × Nat)).Nodup :=
        List.Sublist.nodup hab hsortedNodup
      have hneq : a ≠ b := by
        intro h
        rw [h] at habNodup
        simp at habNodup
      have ha : a ∈ countByPath (allChangedRecords cfg commits) :=
        List.mem_mergeSort.mp (hab.subset (by simp))
      have hb : b ∈ countByPath (allChangedRecords cfg commits) :=
        List.mem_mergeSort.mp (hab.subset (by simp))
      rcases mem_mem_sublist_or ha hb hneq with h | h
      · exact h
      · exfalso
        have hle : countDesc b a := by simp [countDesc, heq]
        have hba : List.Sublist [b, a]
            ((countByPath (allChangedRecords cfg commits)).mergeSort countDesc) :=
          List.pair_sublist_mergeSort countDesc_trans countDesc_total hle h
        exact hneq (pair_sublist_antisymm hsortedNodup hab hba)
    exact List.Pairwise.sublist (List.take_sublist 5 _) hpair

theorem mostChangedFiles_top5_sorted_stable_witness :
    ∃ a, analyzeCodeChanges defaultConfig [exRootCommit, exModCommit] = some a
      ∧ a.mostChangedFiles.length ≤ 5
      ∧ a.mostChangedFiles.Pairwise (fun x y => y.2 ≤ x.2) := by
  obtain ⟨a, h1, h2, h3, -, -⟩ := mostChangedFiles_top5_sorted_stable defaultConfig
    [exRootCommit, exModCommit] rfl (by decide)
  exact ⟨a, h1, h2, h3⟩

/-! ### Key-wise characterisation of the summary fold -/

theorem lookupCount_foldl_bump (l : List (String × Nat)) :
    ∀ (m : List (String × Nat)) (k : String),
      lookupCount (l.foldl (fun m p => bumpCount m p.1 p.2) m) k =
        if k ∈ l.map Prod.fst then
          some ((lookupCount m k).getD 0
            + ((l.filter (fun p => p.1 == k)).map Prod.snd).sum)
        else lookupCount m k := by
  induction l with
  | nil => intro m k; simp
  | cons p0 rest ih =>
    intro m k
    obtain ⟨k0, v0⟩ := p0
    by_cases hk : k0 = k
    · subst hk
      by_cases hmem : k0 ∈ rest.map Prod.fst
      · rw [List.foldl_cons, ih, if_pos hmem, lookupCount_bumpCount, if_pos rfl,
          if_pos (show k0 ∈ List.map Prod.fst ((k0, v0) :: rest) by simp),
          List.filter_cons_of_pos (by simp), List.map_cons, List.sum_cons]
        simp only [Option.getD_some]
        congr 1
        omega
      · have hfil : rest.filter (fun p => p.1 == k0) = [] := by
          rw [List.filter_eq_nil_iff]
          intro p hp
          simp only [beq_iff_eq]
          intro hpk
          exact hmem (hpk ▸ List.mem_map_of_mem Prod.fst hp)
        rw [List.foldl_cons, ih, if_neg hmem, lookupCount_bumpCount, if_pos rfl,
          if_pos (show k0 ∈ List.map Prod.fst ((k0, v0) :: rest) by simp),
          List.filter_cons_of_pos (by simp), hfil, List.map_cons, List.map_nil,
          List.sum_cons, List.sum_nil]
        simp
    · have hb : lookupCount (bumpCount m k0 v0) k = lookupCount m k := by
        rw [lookupCount_bumpCount, if_neg (fun h => hk h.symm)]
      by_cases hmem : k ∈ rest.map Prod.fst
      · rw [List.foldl_cons, ih, if_pos hmem, hb,
          if_pos (show k ∈ List.map Prod.fst ((k0, v0) :: rest) by simp [hmem]),
          List.filter_cons_of_neg (by simp [hk])]
      · rw [List.foldl_cons, ih, if_neg hmem, hb,
          if_neg (show k ∉ List.map Prod.fst ((k0, v0) :: rest) by
            simp [hmem, Ne.symm hk])]

theorem lookupAuthorOpt_foldl_add (l : List (String × AuthorStats)) :
    ∀ (m : List (String × AuthorStats)) (k : String),
      lookupAuthorOpt (l.foldl (fun m p => addAuthorStats m p.1 p.2) m) k =
        if k ∈ l.map Prod.fst then
          some ⟨(lookupAuthor m k).commits
                  + ((l.filter (fun p => p.1 == k)).map (fun p => p.2.commits)).sum,
                (lookupAuthor m k).additions
                  + ((l.filter (fun p => p.1 == k)).map (fun p => p.2.additions)).sum,
                (lookupAuthor m k).deletions
                  + ((l.filter (fun p => p.1 == k)).map (fun p => p.2.deletions)).sum⟩
        else lookupAuthorOpt m k := by
  induction l with
  | nil => intro m k; simp
  | cons p0 rest ih =>
    intro m k
    obtain ⟨k0, v0⟩ := p0
    by_cases hk : k0 = k
    · subst hk
      have hupd : lookupAuthor (addAuthorStats m k0 v0) k0 =
          ⟨(lookupAuthor m k0).commits + v0.commits,
           (lookupAuthor m k0).additions + v0.additions,
           (lookupAuthor m k0).deletions + v0.deletions⟩ := by
        unfold addAuthorStats
        rw [lookupAuthor_updAuthor, if_pos rfl]
      by_cases hmem : k0 ∈ rest.map Prod.fst
      · rw [List.foldl_cons, ih, if_pos hmem, hupd,
          if_pos (show k0 ∈ List.map Prod.fst ((k0, v0) :: rest) by simp),
          List.filter_cons_of_pos (by simp)]
        simp only [List.map_cons, List.sum_cons]
        congr 1
        simp only [AuthorStats.mk.injEq]
        refine ⟨by omega, by omega, by omega⟩
      · have hfil : rest.filter (fun p => p.1 == k0) = [] := by
          rw [List.filter_eq_nil_iff]
          intro p hp
          simp only [beq_iff_eq]
          intro hpk
          exact hmem (hpk ▸ List.mem_map_of_mem Prod.fst hp)
        have hupdOpt : lookupAuthorOpt (addAuthorStats m k0 v0) k0 =
            some ⟨(lookupAuthor m k0).commits + v0.commits,
                  (lookupAuthor m k0).additions + v0.additions,
                  (lookupAuthor m k0).deletions + v0.deletions⟩ := by
          unfold addAuthorStats
          rw [lookupAuthorOpt_updAuthor, if_pos rfl]
        rw [List.foldl_cons, ih, if_neg hmem, hupdOpt,
          if_pos (show k0 ∈ List.map Prod.fst ((k0, v0) :: rest) by simp),
          List.filter_cons_of_pos (by simp), hfil]
        simp only [List.map_cons, List.map_nil, List.sum_cons, List.sum_nil]
        simp
    · have hb : lookupAuthorOpt (addAuthorStats m k0 v0) k = lookupAuthorOpt m k := by
        unfold addAuthorStats
        rw [lookupAuthorOpt_updAuthor, if_neg (fun h => hk h.symm)]
      have hla : lookupAuthor (addAuthorStats m k0 v0) k = lookupAuthor m k := by
        unfold lookupAuthor
        rw [hb]
      by_cases hmem : k ∈ rest.map Prod.fst
      · rw [List.foldl_cons, ih, if_pos hmem, hla,
          if_pos (show k ∈ List.map Prod.fst ((k0, v0) :: rest) by simp [hmem]),
          List.filter_cons_of_neg (by simp [hk])]
      · rw [List.foldl_cons, ih, if_neg hmem, hb,
          if_neg (show k ∉ List.map Prod.fst ((k0, v0) :: rest) by
            simp [hmem, Ne.symm hk])]

/-- `totalFilesChanged` contribution of one repository to the summary. -/
def repoTFC (r : RepoReport) : Nat :=
  match r.analysis with | some a => a.totalFilesChanged | none => 0

/-- Line-addition contribution of one repository to the summary. -/
def repoAdds (r : RepoReport) : Nat :=
  match r.analysis with | some a => a.lineChanges.additions | none => 0

/-- Line-deletion contribution of one repository to the summary. -/
def repoDels (r : RepoReport) : Nat :=
  match r.analysis with | some a => a.lineChanges.deletions | none => 0

/-- `fileChanges` contribution of one repository to the summary. -/
def repoFC (r : RepoReport) : FileChangesCounts :=
  match r.analysis with | some a => a.fileChanges | none => ⟨0, 0, 0, 0⟩

/-- The fileTypes keys one repository contributes. -/
def repoTypeKeys (r : RepoReport) : List String :=
  match r.analysis with | some a => a.fileTypes.map Prod.fst | none => []

/-- The fileTypes count one repository contributes at one key. -/
def repoTypeSum (r : RepoReport) (k : String) : Nat :=
  match r.analysis with
  | some a => ((a.fileTypes.filter (fun p => p.1 == k)).map Prod.snd).sum
  | none => 0

/-- The author keys one repository contributes. -/
def repoAuthorKeys (r : RepoReport) : List String :=
  match r.analysis with | some a => a.commitsByAuthor.map Prod.fst | none => []

/-- The per-author commit count one repository contributes at one key. -/
def repoAuthorCommits (r : RepoReport) (k : String) : Nat :=
  match r.analysis with
  | some a => ((a.commitsByAuthor.filter (fun p => p.1 == k)).map
      (fun p => p.2.commits)).sum
  | none => 0

/-- The per-author additions one repository contributes at one key. -/
def repoAuthorAdds (r : RepoReport) (k : String) : Nat :=
  match r.analysis with
  | some a => ((a.commitsByAuthor.filter (fun p => p.1 == k)).map
      (fun p => p.2.additions)).sum
  | none => 0

/-- The per-author deletions one repository contributes at one key. -/
def repoAuthorDels (r : RepoReport) (k : String) : Nat :=
  match r.analysis with
  | some a => ((a.commitsByAuthor.filter (fun p => p.1 == k)).map
      (fun p => p.2.deletions)).sum
  | none => 0

theorem repoTypeSum_eq_zero {r : RepoReport} {k : String}
    (h : k ∉ repoTypeKeys r) : repoTypeSum r k = 0 := by
  obtain ⟨cs, an⟩ := r
  cases an with
  | none => rfl
  | some a =>
    simp only [repoTypeKeys] at h
    simp only [repoTypeSum]
    have hfil : a.fileTypes.filter (fun p => p.1 == k) = [] := by
      rw [List.filter_eq_nil_iff]
      intro p hp
      simp only [beq_iff_eq]
      intro hpk
      exact h (hpk ▸ List.mem_map_of_mem Prod.fst hp)
    rw [hfil]
    rfl

theorem repoAuthor_eq_zero {r : RepoReport} {k : String}
    (h : k ∉ repoAuthorKeys r) :
    repoAuthorCommits r k = 0 ∧ repoAuthorAdds r k = 0 ∧ repoAuthorDels r k = 0 := by
  obtain ⟨cs, an⟩ := r
  cases an with
  | none => exact ⟨rfl, rfl, rfl⟩
  | some a =>
    simp only [repoAuthorKeys] at h
    simp only [repoAuthorCommits, repoAuthorAdds, repoAuthorDels]
    have hfil : a.commitsByAuthor.filter (fun p => p.1 == k) = [] := by
      rw [List.filter_eq_nil_iff]
      intro p hp
      simp only [beq_iff_eq]
      intro hpk
      exact h (hpk ▸ List.mem_map_of_mem Prod.fst hp)
    rw [hfil]
    exact ⟨rfl, rfl, rfl⟩

theorem addRepoToSummary_char (s : Summary) (r : RepoReport) :
    (addRepoToSummary s r).totalCommits = s.totalCommits + r.commits.length
      ∧ (addRepoToSummary s r).totalFilesChanged = s.totalFilesChanged + repoTFC r
      ∧ (addRepoToSummary s r).totalAdditions = s.totalAdditions + repoAdds r
      ∧ (addRepoToSummary s r).totalDeletions = s.totalDeletions + repoDels r
      ∧ (addRepoToSummary s r).fileChanges =
          ⟨s.fileChanges.added + (repoFC r).added,
           s.fileChanges.modified + (repoFC r).modified,
           s.fileChanges.deleted + (repoFC r).deleted,
           s.fileChanges.renamed + (repoFC r).renamed⟩
      ∧ (∀ k, lookupCount (addRepoToSummary s r).fileTypes k =
          if k ∈ repoTypeKeys r then
            some ((lookupCount s.fileTypes k).getD 0 + repoTypeSum r k)
          else lookupCount s.fileTypes k)
      ∧ (∀ k, lookupAuthorOpt (addRepoToSummary s r).commitsByAuthor k =
          if k ∈ repoAuthorKeys r then
            some ⟨(lookupAuthor s.commitsByAuthor k).commits + repoAuthorCommits r k,
                  (lookupAuthor s.commitsByAuthor k).additions + repoAuthorAdds r k,
                  (lookupAuthor s.commitsByAuthor k).deletions + repoAuthorDels r k⟩
          else lookupAuthorOpt s.commitsByAuthor k) := by
  obtain ⟨cs, an⟩ := r
  cases an with
  | none =>
    refine ⟨rfl, ?_, ?_, ?_, ?_, ?_, ?_⟩
    · simp [addRepoToSummary, repoTFC]
    · simp [addRepoToSummary, repoAdds]
    · simp [addRepoToSummary, repoDels]
    · simp [addRepoToSummary, repoFC]
    · intro k
      simp [addRepoToSummary, repoTypeKeys]
    · intro k
      simp [addRepoToSummary, repoAuthorKeys]
  | some a =>
    refine ⟨rfl, rfl, rfl, rfl, rfl, ?_, ?_⟩
    · intro k
      exact lookupCount_foldl_bump a.fileTypes s.fileTypes k
    · intro k
      exact lookupAuthorOpt_foldl_add a.commitsByAuthor s.commitsByAuthor k

theorem summary_fold_char (rs : List RepoReport) :
    ∀ s : Summary,
      (rs.foldl addRepoToSummary s).totalCommits
          = s.totalCommits + (rs.map (fun r => r.commits.length)).sum
        ∧ (rs.foldl addRepoToSummary s).totalFilesChanged
          = s.totalFilesChanged + (rs.map repoTFC).sum
        ∧ (rs.foldl addRepoToSummary s).totalAdditions
          = s.totalAdditions + (rs.map repoAdds).sum
        ∧ (rs.foldl addRepoToSummary s).totalDeletions
          = s.totalDeletions + (rs.map repoDels).sum
        ∧ (rs.foldl addRepoToSummary s).fileChanges
          = ⟨s.fileChanges.added + (rs.map (fun r => (repoFC r).added)).sum,
             s.fileChanges.modified + (rs.map (fun r => (repoFC r).modified)).sum,
             s.fileChanges.deleted + (rs.map (fun r => (repoFC r).deleted)).sum,
             s.fileChanges.renamed + (rs.map (fun r => (repoFC r).renamed)).sum⟩
        ∧ (∀ k, lookupCount (rs.foldl addRepoToSummary s).fileTypes k =
            if ∃ r ∈ rs, k ∈ repoTypeKeys r then
              some ((lookupCount s.fileTypes k).getD 0
                + (rs.map (fun r => repoTypeSum r k)).sum)
            else lookupCount s.fileTypes k)
        ∧ (∀ k, lookupAuthorOpt (rs.foldl addRepoToSummary s).commitsByAuthor k =
            if ∃ r ∈ rs, k ∈ repoAuthorKeys r then
              some ⟨(lookupAuthor s.commitsByAuthor k).commits
                      + (rs.map (fun r => repoAuthorCommits r k)).sum,
                    (lookupAuthor s.commitsByAuthor k).additions
                      + (rs.map (fun r => repoAuthorAdds r k)).sum,
                    (lookupAuthor s.commitsByAuthor k).deletions
                      + (rs.map (fun r => repoAuthorDels r k)).sum⟩
            else lookupAuthorOpt s.commitsByAuthor k) := by
  induction rs with
  | nil =>
    intro s
    refine ⟨by simp, by simp, by simp, by simp, by simp, ?_, ?_⟩
    · intro k; simp
    · intro k; simp
  | cons r rest ih =>
    intro s
    obtain ⟨hc1, hc2, hc3, hc4, hc5, hc6, hc7⟩ := addRepoToSummary_char s r
    obtain ⟨ih1, ih2, ih3, ih4, ih5, ih6, ih7⟩ := ih (addRepoToSummary s r)
    refine ⟨?_, ?_, ?_, ?_, ?_, ?_, ?_⟩
    · rw [List.foldl_cons, ih1, hc1, List.map_cons, List.sum_cons]; omega
    · rw [List.foldl_cons, ih2, hc2, List.map_cons, List.sum_cons]; omega
    · rw [List.foldl_cons, ih3, hc3, List.map_cons, List.sum_cons]; omega
    · rw [List.foldl_cons, ih4, hc4, List.map_cons, List.sum_cons]; omega
    · rw [List.foldl_cons, ih5, hc5]
      simp only [List.map_cons, List.sum_cons, FileChangesCounts.mk.injEq]
      refine ⟨by omega, by omega, by omega, by omega⟩
    · intro k
      rw [List.foldl_cons, ih6 k]
      by_cases hr : k ∈ repoTypeKeys r
      · have hcons : ∃ r2 ∈ r :: rest, k ∈ repoTypeKeys r2 :=
          ⟨r, List.mem_cons_self _ _, hr⟩
        by_cases hrest : ∃ r2 ∈ rest, k ∈ repoTypeKeys r2
        · rw [if_pos hrest, hc6 k, if_pos hr, if_pos hcons,
            List.map_cons, List.sum_cons]
          simp only [Option.getD_some]
          congr 1
          omega
        · have hzero : (rest.map (fun r2 => repoTypeSum r2 k)).sum = 0 := by
            apply List.sum_eq_zero
            intro x hx
            obtain ⟨r2, hr2, hval⟩ := List.mem_map.mp hx
            rw [← hval]
            exact repoTypeSum_eq_zero (fun hk => hrest ⟨r2, hr2, hk⟩)
          rw [if_neg hrest, hc6 k, if_pos hr, if_pos hcons,
            List.map_cons, List.sum_cons, hzero]
          simp
      · by_cases hrest : ∃ r2 ∈ rest, k ∈ repoTypeKeys r2
        · have hcons : ∃ r2 ∈ r :: rest, k ∈ repoTypeKeys r2 := by
            obtain ⟨r2, h2, h3⟩ := hrest
            exact ⟨r2, List.mem_cons_of_mem _ h2, h3⟩
          rw [if_pos hrest, hc6 k, if_neg hr, if_pos hcons,
            List.map_cons, List.sum_cons, repoTypeSum_eq_zero hr]
          simp
        · have hcons : ¬∃ r2 ∈ r :: rest, k ∈ repoTypeKeys r2 := by
            rintro ⟨r2, h2, h3⟩
            rcases List.mem_cons.mp h2 with rfl | h2'
            · exact hr h3
            · exact hrest ⟨r2, h2', h3⟩
          rw [if_neg hrest, hc6 k, if_neg hr, if_neg hcons]
    · intro k
      rw [List.foldl_cons, ih7 k]
      have hgetd : lookupAuthor (addRepoToSummary s r).commitsByAuthor k
          = (lookupAuthorOpt (addRepoToSummary s r).commitsByAuthor k).getD ⟨0, 0, 0⟩ := rfl
      by_cases hr : k ∈ repoAuthorKeys r
      · have hA : lookupAuthor (addRepoToSummary s r).commitsByAuthor k =
            ⟨(lookupAuthor s.commitsByAuthor k).commits + repoAuthorCommits r k,
             (lookupAuthor s.commitsByAuthor k).additions + repoAuthorAdds r k,
             (lookupAuthor s.commitsByAuthor k).deletions + repoAuthorDels r k⟩ := by
          rw [hgetd, hc7 k, if_pos hr, Option.getD_some]
        have hcons : ∃ r2 ∈ r :: rest, k ∈ repoAuthorKeys r2 :=
          ⟨r, List.mem_cons_self _ _, hr⟩
        by_cases hrest : ∃ r2 ∈ rest, k ∈ repoAuthorKeys r2
        · rw [if_pos hrest, hA, if_pos hcons]
          simp only [List.map_cons, List.sum_cons]
          congr 1
          simp only [AuthorStats.mk.injEq]
          refine ⟨by omega, by omega, by omega⟩
        · have hz : ∀ r2 ∈ rest, repoAuthorCommits r2 k = 0
              ∧ repoAuthorAdds r2 k = 0 ∧ repoAuthorDels r2 k = 0 := by
            intro r2 hr2
            exact repoAuthor_eq_zero (fun hk => hrest ⟨r2, hr2, hk⟩)
          have hz1 : (rest.map (fun r2 => repoAuthorCommits r2 k)).sum = 0 := by
            apply List.sum_eq_zero
            intro x hx
            obtain ⟨r2, hr2, hval⟩ := List.mem_map.mp hx
            rw [← hval]
            exact (hz r2 hr2).1
          have hz2 : (rest.map (fun r2 => repoAuthorAdds r2 k)).sum = 0 := by
            apply List.sum_eq_zero
            intro x hx
            obtain ⟨r2, hr2, hval⟩ := List.mem_map.mp hx
            rw [← hval]
            exact (hz r2 hr2).2.1
          have hz3 : (rest.map (fun r2 => repoAuthorDels r2 k)).sum = 0 := by
            apply List.sum_eq_zero
            intro x hx
            obtain ⟨r2, hr2, hval⟩ := List.mem_map.mp hx
            rw [← hval]
            exact (hz r2 hr2).2.2
          rw [if_neg hrest, hc7 k, if_pos hr, if_pos hcons]
          simp only [List.map_cons, List.sum_cons, hz1, hz2, hz3]
          simp
      · have hA : lookupAuthor (addRepoToSummary s r).commitsByAuthor k
            = lookupAuthor s.commitsByAuthor k := by
          rw [hgetd, hc7 k, if_neg hr]
          rfl
        obtain ⟨hz1, hz2, hz3⟩ := repoAuthor_eq_zero hr
        by_cases hrest : ∃ r2 ∈ rest, k ∈ repoAuthorKeys r2
        · have hcons : ∃ r2 ∈ r :: rest, k ∈ repoAuthorKeys r2 := by
            obtain ⟨r2, h2, h3⟩ := hrest
            exact ⟨r2, List.mem_cons_of_mem _ h2, h3⟩
          rw [if_pos hrest, hA, if_pos hcons]
          simp only [List.map_cons, List.sum_cons, hz1, hz2, hz3]
          congr 1
          simp only [AuthorStats.mk.injEq]
          refine ⟨by omega, by omega, by omega⟩
        · have hcons : ¬∃ r2 ∈ r :: rest, k ∈ repoAuthorKeys r2 := by
            rintro ⟨r2, h2, h3⟩
            rcases List.mem_cons.mp h2 with rfl | h2'
            · exact hr h3
            · exact hrest ⟨r2, h2', h3⟩
          rw [if_neg hrest, hc7 k, if_neg hr, if_neg hcons]

/-- C7: folding any permutation of the per-repository reports yields the
same Summary: equal totals, equal fileChanges counters, and equal
key-to-value maps for fileTypes and commitsByAuthor. -/
theorem generateSummaryStats_perm_invariant (rs1 rs2 : List RepoReport)
    (hperm : rs1.Perm rs2) :
    (generateSummaryStats rs1).totalCommits = (generateSummaryStats rs2).totalCommits
      ∧ (generateSummaryStats rs1).totalFilesChanged
        = (generateSummaryStats rs2).totalFilesChanged
      ∧ (generateSummaryStats rs1).totalAdditions
        = (generateSummaryStats rs2).totalAdditions
      ∧ (generateSummaryStats rs1).totalDeletions
        = (generateSummaryStats rs2).totalDeletions
      ∧ (generateSummaryStats rs1).fileChanges = (generateSummaryStats rs2).fileChanges
      ∧ (∀ k, lookupCount (generateSummaryStats rs1).fileTypes k
          = lookupCount (generateSummaryStats rs2).fileTypes k)
      ∧ (∀ k, lookupAuthorOpt (generateSummaryStats rs1).commitsByAuthor k
          = lookupAuthorOpt (generateSummaryStats rs2).commitsByAuthor k) := by
  obtain ⟨a1, b1, c1, d1, e1, f1, g1⟩ := summary_fold_char rs1 initSummary
  obtain ⟨a2, b2, c2, d2, e2, f2, g2⟩ := summary_fold_char rs2 initSummary
  refine ⟨?_, ?_, ?_, ?_, ?_, ?_, ?_⟩
  · show (rs1.foldl addRepoToSummary initSummary).totalCommits
      = (rs2.foldl addRepoToSummary initSummary).totalCommits
    rw [a1, a2, List.Perm.sum_eq (hperm.map _)]
  · show (rs1.foldl addRepoToSummary initSummary).totalFilesChanged
      = (rs2.foldl addRepoToSummary initSummary).totalFilesChanged
    rw [b1, b2, List.Perm.sum_eq (hperm.map _)]
  · show (rs1.foldl addRepoToSummary initSummary).totalAdditions
      = (rs2.foldl addRepoToSummary initSummary).totalAdditions
    rw [c1, c2, List.Perm.sum_eq (hperm.map _)]
  · show (rs1.foldl addRepoToSummary initSummary).totalDeletions
      = (rs2.foldl addRepoToSummary initSummary).totalDeletions
    rw [d1, d2, List.Perm.sum_eq (hperm.map _)]
  · show (rs1.foldl addRepoToSummary initSummary).fileChanges
      = (rs2.foldl addRepoToSummary initSummary).fileChanges
    rw [e1, e2]
    simp only [FileChangesCounts.mk.injEq]
    refine ⟨?_, ?_, ?_, ?_⟩ <;> rw [List.Perm.sum_eq (hperm.map _)]
  · intro k
    show lookupCount (rs1.foldl addRepoToSummary initSummary).fileTypes k
      = lookupCount (rs2.foldl addRepoToSummary initSummary).fileTypes k
    rw [f1 k, f2 k]
    have hiff : (∃ r ∈ rs1, k ∈ repoTypeKeys r) ↔ (∃ r ∈ rs2, k ∈ repoTypeKeys r) := by
      constructor
      · rintro ⟨r, hr, hk⟩
        exact ⟨r, hperm.mem_iff.mp hr, hk⟩
      · rintro ⟨r, hr, hk⟩
        exact ⟨r, hperm.mem_iff.mpr hr, hk⟩
    by_cases h1 : ∃ r ∈ rs1, k ∈ repoTypeKeys r
    · rw [if_pos h1, if_pos (hiff.mp h1), List.Perm.sum_eq (hperm.map _)]
    · rw [if_neg h1, if_neg (fun h => h1 (hiff.mpr h))]
  · intro k
    show lookupAuthorOpt (rs1.foldl addRepoToSummary initSummary).commitsByAuthor k
      = lookupAuthorOpt (rs2.foldl addRepoToSummary initSummary).commitsByAuthor k
    rw [g1 k, g2 k]
    have hiff : (∃ r ∈ rs1, k ∈ repoAuthorKeys r) ↔ (∃ r ∈ rs2, k ∈ repoAuthorKeys r) := by
      constructor
      · rintro ⟨r, hr, hk⟩
        exact ⟨r, hperm.mem_iff.mp hr, hk⟩
      · rintro ⟨r, hr, hk⟩
        exact ⟨r, hperm.mem_iff.mpr hr, hk⟩
    by_cases h1 : ∃ r ∈ rs1, k ∈ repoAuthorKeys r
    · rw [if_pos h1, if_pos (hiff.mp h1),
        List.Perm.sum_eq (hperm.map (fun r => repoAuthorCommits r k)),
        List.Perm.sum_eq (hperm.map (fun r => repoAuthorAdds r k)),
        List.Perm.sum_eq (hperm.map (fun r => repoAuthorDels r k))]
    · rw [if_neg h1, if_neg (fun h => h1 (hiff.mpr h))]

/-- Sample per-repository reports for the permutation witness. -/
def exRepoA : RepoReport :=
  { commits := [exModCommit]
    analysis := some
      { totalCommits := 1
        totalFilesChanged := 2
        fileTypes := [(".go", 1), (".ts", 1)]
        fileChanges := ⟨1, 1, 0, 0⟩
        lineChanges := ⟨5, 3⟩
        mostChangedFiles := [("a.go", 1)]
        commitsByAuthor := [("bob", ⟨1, 5, 3⟩)] } }

/-- Second sample report for the permutation witness. -/
def exRepoB : RepoReport :=
  { commits := [exRootCommit]
    analysis := some
      { totalCommits := 1
        totalFilesChanged := 2
        fileTypes := [(".go", 1)]
        fileChanges := ⟨2, 0, 0, 0⟩
        lineChanges := ⟨7, 0⟩
        mostChangedFiles := []
        commitsByAuthor := [("alice", ⟨1, 0, 0⟩)] } }

theorem generateSummaryStats_perm_invariant_witness :
    (generateSummaryStats [exRepoA, exRepoB]).totalCommits
        = (generateSummaryStats [exRepoB, exRepoA]).totalCommits
      ∧ lookupCount (generateSummaryStats [exRepoA, exRepoB]).fileTypes ".go"
        = lookupCount (generateSummaryStats [exRepoB, exRepoA]).fileTypes ".go"
      ∧ lookupAuthorOpt (generateSummaryStats [exRepoA, exRepoB]).commitsByAuthor "bob"
        = lookupAuthorOpt (generateSummaryStats [exRepoB, exRepoA]).commitsByAuthor "bob" := by
  obtain ⟨h1, -, -, -, -, h6, h7⟩ := generateSummaryStats_perm_invariant
    [exRepoA, exRepoB] [exRepoB, exRepoA] (List.Perm.swap exRepoB exRepoA [])
  exact ⟨h1, h6 ".go", h7 "bob"⟩

/-- A repository with zero windowed commits: the info query failed, the
repository is empty, or no commit fell in the window (this also covers a
repository whose history head cannot be resolved, whose commit query
yields the empty list). -/
def emptyOutcome (r : RepoData) : Bool :=
  r.infoError || r.isEmpty || r.commits.isEmpty

theorem generateRepoReport_empty (cfg : Config) (r : RepoData)
    (h : emptyOutcome r = true) :
    generateRepoReport cfg r = { commits := [], analysis := none } := by
  obtain ⟨ie, ise, cs⟩ := r
  cases ie
  · cases ise
    · simp only [emptyOutcome, Bool.or_eq_true, List.isEmpty_iff] at h
      rcases h with (h | h) | h
      · simp at h
      · simp at h
      · subst h
        simp [generateRepoReport]
    · simp [generateRepoReport]
  · simp [generateRepoReport]

/-- C8: the analysis is `null` for an empty commit list and whenever code
analysis is disabled; a repository with zero windowed commits (including
an unreadable or empty one) produces a report with no commits and a
`null` analysis, contributes nothing to the Summary, but is still counted
in `totalRepos`. -/
theorem null_analysis_and_summary_exclusion (cfg cfg2 : Config)
    (l : List CommitEnv) (h2 : cfg2.includeCodeAnalysis = false)
    (repos1 repos2 : List RepoData) (r : RepoData) (h : emptyOutcome r = true) :
    analyzeCodeChanges cfg [] = none
      ∧ analyzeCodeChanges cfg2 l = none
      ∧ (generateRepoReport cfg r).commits = []
      ∧ (generateRepoReport cfg r).analysis = none
      ∧ (generateFullReport cfg (repos1 ++ r :: repos2)).summary
        = (generateFullReport cfg (repos1 ++ repos2)).summary
      ∧ (generateFullReport cfg (repos1 ++ r :: repos2)).totalRepos
        = repos1.length + repos2.length + 1 := by
  have hrep := generateRepoReport_empty cfg r h
  refine ⟨?_, ?_, by rw [hrep], by rw [hrep], ?_, ?_⟩
  · simp [analyzeCodeChanges]
  · simp [analyzeCodeChanges, h2]
  · unfold generateFullReport
    simp only [List.map_append, List.map_cons, List.filter_append, List.filter_cons, hrep]
    simp
  · unfold generateFullReport
    simp only [List.length_append, List.length_cons]
    omega

/-- A repository outcome with no windowed commits. -/
def exEmptyRepoData : RepoData := { infoError := false, isEmpty := false, commits := [] }

/-- A repository outcome with one windowed commit. -/
def exGoodRepoData : RepoData :=
  { infoError := false, isEmpty := false, commits := [exModCommit] }

theorem null_analysis_and_summary_exclusion_witness :
    (generateFullReport defaultConfig [exGoodRepoData, exEmptyRepoData]).summary
        = (generateFullReport defaultConfig [exGoodRepoData]).summary
      ∧ (generateFullReport defaultConfig [exGoodRepoData, exEmptyRepoData]).totalRepos = 2
      ∧ (generateRepoReport defaultConfig exEmptyRepoData).analysis = none := by
  obtain ⟨-, -, -, h4, h5, h6⟩ := null_analysis_and_summary_exclusion defaultConfig
    { includeCodeAnalysis := false, ignoreFileTypes := [] } [] rfl
    [exGoodRepoData] [] exEmptyRepoData (by decide)
  exact ⟨h5, h6, h4⟩

/-! ### Root-commit detection -/

theorem jsFindIndex_eq_findIdx {α : Type _} (p : α → Bool) (l : List α) :
    jsFindIndex p l = if l.findIdx p < l.length then (l.findIdx p : Int) else -1 := by
  induction l with
  | nil => simp [jsFindIndex]
  | cons a t ih =>
    by_cases hp : p a
    · simp [jsFindIndex, hp, List.findIdx_cons]
    · simp only [jsFindIndex, hp, if_false, Bool.false_eq_true, ih,
        List.findIdx_cons, cond_eq_if, List.length_cons]
      by_cases hlt : t.findIdx p < t.length
      · rw [if_pos hlt]
        have hne : ((t.findIdx p : Int)) ≠ -1 := by omega
        rw [if_neg hne, if_pos (by omega : t.findIdx p + 1 < t.length + 1)]
        push_cast
        omega
      · rw [if_neg hlt]
        simp only [if_pos rfl]
        rw [if_neg (by omega : ¬t.findIdx p + 1 < t.length + 1)]
        simp

theorem isFirstCommit_eq_true_iff (log : List LogEntry) (hne : log ≠ [])
    (hnd : (log.map LogEntry.hash).Nodup) (h : String)
    (hmem : h ∈ log.map LogEntry.hash) :
    (isFirstCommit log h = true ↔ (log.getLast hne).hash = h) := by
  have hex : ∃ e ∈ log, (fun c => c.hash == h) e := by
    obtain ⟨e, he, rfl⟩ := List.mem_map.mp hmem
    exact ⟨e, he, by simp⟩
  have hlt : log.findIdx (fun c => c.hash == h) < log.length :=
    List.findIdx_lt_length.mpr hex
  have hlen : 1 ≤ log.length := by
    cases log with
    | nil => exact absurd rfl hne
    | cons x xs => simp
  have hget := @List.findIdx_getElem _ (fun c => c.hash == h) log hlt
  have hj : log[log.findIdx (fun c => c.hash == h)].hash = h := by
    simpa using hget
  unfold isFirstCommit
  rw [jsFindIndex_eq_findIdx, if_pos hlt]
  simp only [beq_iff_eq]
  constructor
  · intro hidx
    have hidx2 : log.findIdx (fun c => c.hash == h) = log.length - 1 := by omega
    rw [List.getLast_eq_getElem]
    have hb : log.length - 1 < log.length := by omega
    have hswap : log[log.length - 1] = log[log.findIdx (fun c => c.hash == h)] := by
      congr 1
      omega
    rw [hswap]
    exact hj
  · intro hlast
    rw [List.getLast_eq_getElem] at hlast
    have hb1 : log.findIdx (fun c => c.hash == h) < (log.map LogEntry.hash).length := by
      simpa using hlt
    have hb2 : log.length - 1 < (log.map LogEntry.hash).length := by
      rw [List.length_map]
      omega
    have hmap1 : (log.map LogEntry.hash)[log.findIdx (fun c => c.hash == h)] = h := by
      rw [List.getElem_map]
      exact hj
    have hmap2 : (log.map LogEntry.hash)[log.length - 1] = h := by
      rw [List.getElem_map]
      exact hlast
    have hidx2 := (List.Nodup.getElem_inj_iff hnd).mp (hmap1.trans hmap2.symm)
    omega

/-- C9: each windowed commit's root flag is true iff it is the
chronologically last entry of the full unfiltered history list
(newest-first), not merely the last entry of the filtered subset. -/
theorem isFirstCommit_iff_last_of_full_history (inRange : String → Bool)
    (fmtDate : String → String) (log : List LogEntry) (hne : log ≠ [])
    (hnd : (log.map LogEntry.hash).Nodup) :
    ∀ c ∈ getCommitsInDateRange inRange fmtDate log,
      (c.isFirstCommit = true ↔ (log.getLast hne).hash = c.hash) := by
  intro c hc
  unfold getCommitsInDateRange at hc
  obtain ⟨e, he, rfl⟩ := List.mem_map.mp hc
  have hmem : e.hash ∈ log.map LogEntry.hash :=
    List.mem_map_of_mem _ (List.mem_filter.mp he).1
  simpa using isFirstCommit_eq_true_iff log hne hnd e.hash hmem

/-- A two-entry history, newest first. -/
def exLog : List LogEntry :=
  [{ hash := "h1", date := "2024-01-02", message := "second",
     author_name := "alice", author_email := "a@x" },
   { hash := "h0", date := "2024-01-01", message := "initial",
     author_name := "alice", author_email := "a@x" }]

theorem exLog_ne : exLog ≠ [] := by decide

theorem isFirstCommit_iff_last_of_full_history_witness :
    ({ hash := "h0", date := "2024-01-01", message := "initial",
       author := "alice", email := "a@x", isFirstCommit := true : Commit }.isFirstCommit = true
      ↔ (exLog.getLast exLog_ne).hash
        = ({ hash := "h0", date := "2024-01-01", message := "initial",
             author := "alice", email := "a@x", isFirstCommit := true : Commit }).hash) := by
  have h := isFirstCommit_iff_last_of_full_history (fun _ => true) (fun d => d)
    exLog exLog_ne (by decide)
  exact h _ (by decide)

/-! ### Split/join lemmas for the path parsers -/

theorem splitOnChar_ne_nil (sep : Char) (l : List Char) : splitOnChar sep l ≠ [] := by
  induction l with
  | nil => simp [splitOnChar]
  | cons c cs ih =>
    simp only [splitOnChar]
    by_cases h : c = sep
    · simp [h]
    · simp only [if_neg h]
      cases hsp : splitOnChar sep cs with
      | nil => simp
      | cons hd tl => simp

theorem splitOnChar_not_mem (sep : Char) (l : List Char) (h : sep ∉ l) :
    splitOnChar sep l = [l] := by
  induction l with
  | nil => rfl
  | cons c cs ih =>
    have hc : c ≠ sep := fun hh => h (hh ▸ List.mem_cons_self _ _)
    have hcs : sep ∉ cs := fun hh => h (List.mem_cons_of_mem _ hh)
    simp only [splitOnChar, if_neg hc, ih hcs]

theorem splitOnChar_append (sep : Char) (a b : List Char) (h : sep ∉ a) :
    splitOnChar sep (a ++ sep :: b) = a :: splitOnChar sep b := by
  induction a with
  | nil => simp [splitOnChar]
  | cons c cs ih =>
    have hc : c ≠ sep := fun hh => h (hh ▸ List.mem_cons_self _ _)
    have hcs : sep ∉ cs := fun hh => h (List.mem_cons_of_mem _ hh)
    simp only [List.cons_append, splitOnChar, if_neg hc, List.append_eq, ih hcs]

theorem intercalateChar_splitOnChar (sep : Char) (l : List Char) :
    intercalateChar sep (splitOnChar sep l) = l := by
  induction l with
  | nil => rfl
  | cons c cs ih =>
    by_cases h : c = sep
    · subst h
      simp only [splitOnChar, if_pos rfl]
      cases hsp : splitOnChar c cs with
      | nil => exact absurd hsp (splitOnChar_ne_nil c cs)
      | cons hd tl =>
        rw [hsp] at ih
        simp only [intercalateChar]
        rw [ih]
        simp
    · simp only [splitOnChar, if_neg h]
      cases hsp : splitOnChar sep cs with
      | nil => exact absurd hsp (splitOnChar_ne_nil sep cs)
      | cons hd tl =>
        rw [hsp] at ih
        cases tl with
        | nil =>
          simp only [intercalateChar] at ih ⊢
          rw [ih]
        | cons t2 ts =>
          simp only [intercalateChar] at ih ⊢
          rw [List.cons_append, ih]

theorem jsTrim_ne_nil {l : List Char} {c : Char} (hc : c ∈ l)
    (hw : ¬c.isWhitespace) : jsTrim l ≠ [] := by
  intro hnil
  unfold jsTrim at hnil
  rw [List.reverse_eq_nil_iff, List.dropWhile_eq_nil_iff] at hnil
  have hsplit := List.takeWhile_append_dropWhile
    (p := Char.isWhitespace) (l := l)
  rw [← hsplit] at hc
  have hcd : c ∈ List.dropWhile Char.isWhitespace l := by
    rcases List.mem_append.mp hc with h | h
    · exact absurd (List.mem_takeWhile_imp h) hw
    · exact h
  have := hnil c (by simpa using hcd)
  exact hw this

/-- C3 counterexample: the root branch keeps only the first tab-separated
field after the mode/blob prefix — a path containing a tab is truncated
to `dir` — while the non-root branch rejoins every field. -/
theorem parseFirstCommitFiles_truncates_tab_path :
    (parseFirstCommitFiles "100644 blob h\tdir\tsub.js").map (fun f => f.path) = ["dir"]
      ∧ (parseGitDiff "M\tdir\tsub.js").map (fun f => f.path) = ["dir\tsub.js"]
      ∧ "dir" ≠ "dir\tsub.js" :=
  ⟨rfl, rfl, by decide⟩

/-- C3 (amended): on a status line whose path contains the tab separator,
`parseGitDiff` (non-root branch) produces the entire portion after the
status token with all fields rejoined, but `parseFirstCommitFiles` (root
branch) produces only the first field after the first tab. -/
theorem path_parsing_tab_asymmetry (st q1 q2 : String)
    (hstT : '\t' ∉ st.data) (hstN : '\n' ∉ st.data)
    (hstw : ∃ c ∈ st.data, ¬c.isWhitespace)
    (hq1T : '\t' ∉ q1.data) (hq1N : '\n' ∉ q1.data) (hq2N : '\n' ∉ q2.data) :
    (parseGitDiff (st ++ "\t" ++ q1 ++ "\t" ++ q2)).map (fun f => f.path)
        = [q1 ++ "\t" ++ q2]
      ∧ (parseFirstCommitFiles (st ++ "\t" ++ q1 ++ "\t" ++ q2)).map (fun f => f.path)
        = [q1] := by
  have hdata : (st ++ "\t" ++ q1 ++ "\t" ++ q2).data
      = st.data ++ '\t' :: (q1.data ++ '\t' :: q2.data) := by
    simp [String.data_append]
  have hnoN : '\n' ∉ (st ++ "\t" ++ q1 ++ "\t" ++ q2).data := by
    rw [hdata]
    intro hmem
    rcases List.mem_append.mp hmem with h | h
    · exact hstN h
    · rcases List.mem_cons.mp h with h | h
      · exact absurd h (by decide)
      · rcases List.mem_append.mp h with h | h
        · exact hq1N h
        · rcases List.mem_cons.mp h with h | h
          · exact absurd h (by decide)
          · exact hq2N h
  obtain ⟨cw, hcw, hcwn⟩ := hstw
  have hsplitN : splitOnChar '\n' (st ++ "\t" ++ q1 ++ "\t" ++ q2).data
      = [(st ++ "\t" ++ q1 ++ "\t" ++ q2).data] :=
    splitOnChar_not_mem _ _ hnoN
  have hcmem : cw ∈ (st ++ "\t" ++ q1 ++ "\t" ++ q2).data := by
    rw [hdata]
    exact List.mem_append.mpr (Or.inl hcw)
  have hctrim : jsTrim (st ++ "\t" ++ q1 ++ "\t" ++ q2).data ≠ [] :=
    jsTrim_ne_nil hcmem hcwn
  have hfil : ((splitOnChar '\n' (st ++ "\t" ++ q1 ++ "\t" ++ q2).data).filter
      (fun l => !(jsTrim l).isEmpty)) = [(st ++ "\t" ++ q1 ++ "\t" ++ q2).data] := by
    rw [hsplitN]
    have hne : ((jsTrim (st ++ "\t" ++ q1 ++ "\t" ++ q2).data).isEmpty) = false := by
      rw [List.isEmpty_eq_false]
      exact hctrim
    rw [hdata] at hne
    simp [List.filter, hne, hdata]
  have hpartsT : splitOnChar '\t' (st ++ "\t" ++ q1 ++ "\t" ++ q2).data
      = st.data :: splitOnChar '\t' (q1.data ++ '\t' :: q2.data) := by
    rw [hdata]
    exact splitOnChar_append '\t' st.data _ hstT
  have hparts2 : splitOnChar '\t' (q1.data ++ '\t' :: q2.data)
      = q1.data :: splitOnChar '\t' q2.data :=
    splitOnChar_append '\t' q1.data q2.data hq1T
  constructor
  · simp only [parseGitDiff]
    rw [hfil]
    simp only [List.map_cons, List.map_nil, hpartsT, List.tail_cons]
    rw [intercalateChar_splitOnChar]
    apply congrArg (fun x => [x])
    apply String.ext
    simp [String.data_append]
  · simp only [parseFirstCommitFiles]
    rw [hfil]
    simp only [List.map_cons, List.map_nil, hpartsT, hparts2]
    have hlen : (st.data :: q1.data :: splitOnChar '\t' q2.data).length > 1 := by
      simp
    rw [if_pos hlen]
    simp

theorem path_parsing_tab_asymmetry_witness :
    (parseGitDiff ("R100" ++ "\t" ++ "old.js" ++ "\t" ++ "new.js")).map (fun f => f.path)
        = ["old.js" ++ "\t" ++ "new.js"]
      ∧ (parseFirstCommitFiles ("R100" ++ "\t" ++ "old.js" ++ "\t" ++ "new.js")).map
          (fun f => f.path) = ["old.js"] :=
  path_parsing_tab_asymmetry "R100" "old.js" "new.js" (by decide) (by decide)
    ⟨'R', by decide, by decide⟩ (by decide) (by decide) (by decide)

end GitReport
